import Mathlib

/-!
# GoTypo: trie membership and Levenshtein suggestions

A shallow embedding of `main.go`: the rune-keyed trie (`Trie.Insert`, `Trie.Search`),
the dynamic-programming `Levenshtein` distance with its three-argument `min`,
`SuggestWords` and `BestSuggestion`.

Go strings are byte sequences.  `for _, ch := range word` walks the string by UTF-8
decoding (an invalid byte is read as U+FFFD and one byte is consumed), while `len(a)` and
`a[i]` count and index bytes.  Both views are modelled, since the trie uses the first and
`Levenshtein` the second.
-/

namespace GoTypo

/-! ## Go strings, bytes and runes -/

/-- A Go `byte`. -/
abbrev Byte := Fin 256

/-- A Go `string`: an immutable sequence of bytes, `len` is `List.length`. -/
abbrev GoString := List Byte

/-- A Go `rune` (a code point); only non-negative values arise from decoding. -/
abbrev Rune := Nat

/-- The byte with value `n % 256`. -/
def byte (n : Nat) : Byte := ⟨n % 256, Nat.mod_lt _ (by decide)⟩

/-- Go's `utf8.RuneError`, the replacement character U+FFFD. -/
def RuneError : Rune := 0xFFFD

/-- Whether byte `b` lies in the closed range `lo..hi`. -/
def inRange (lo hi : Nat) (b : Byte) : Bool := decide (lo ≤ b.val) && decide (b.val ≤ hi)

/-- The range accepted for the second byte of a sequence led by `b0`
(`acceptRanges` of Go's `unicode/utf8`). -/
def acceptLo (b0 : Byte) : Nat :=
  if b0.val = 0xE0 then 0xA0 else if b0.val = 0xF0 then 0x90 else 0x80

/-- Upper end of the range accepted for the second byte. -/
def acceptHi (b0 : Byte) : Nat :=
  if b0.val = 0xED then 0x9F else if b0.val = 0xF4 then 0x8F else 0xBF

/-- The encoded size announced by a leading byte; `0` for a byte that cannot lead a
multi-byte sequence (ASCII is handled apart). -/
def leadSize (b0 : Byte) : Nat :=
  if 0xC2 ≤ b0.val ∧ b0.val ≤ 0xDF then 2
  else if 0xE0 ≤ b0.val ∧ b0.val ≤ 0xEF then 3
  else if 0xF0 ≤ b0.val ∧ b0.val ≤ 0xF4 then 4
  else 0

/-- The first rune of a string and its width in bytes, as Go's `utf8.DecodeRuneInString`
(and the runtime's decoder behind `range`): an invalid or truncated sequence gives
`(RuneError, 1)`, the empty string `(RuneError, 0)`. -/
def decodeRune : GoString → Rune × Nat
  | [] => (RuneError, 0)
  | b0 :: rest =>
    if b0.val < 0x80 then (b0.val, 1)
    else if leadSize b0 = 0 then (RuneError, 1)
    else if rest.length + 1 < leadSize b0 then (RuneError, 1)
    else
      match rest with
      | [] => (RuneError, 1)
      | b1 :: rest1 =>
        if !inRange (acceptLo b0) (acceptHi b0) b1 then (RuneError, 1)
        else if leadSize b0 ≤ 2 then ((b0.val % 0x20) * 0x40 + b1.val % 0x40, 2)
        else
          match rest1 with
          | [] => (RuneError, 1)
          | b2 :: rest2 =>
            if !inRange 0x80 0xBF b2 then (RuneError, 1)
            else if leadSize b0 ≤ 3 then
              ((b0.val % 0x10) * 0x1000 + (b1.val % 0x40) * 0x40 + b2.val % 0x40, 3)
            else
              match rest2 with
              | [] => (RuneError, 1)
              | b3 :: _ =>
                if !inRange 0x80 0xBF b3 then (RuneError, 1)
                else ((b0.val % 0x08) * 0x40000 + (b1.val % 0x40) * 0x1000
                        + (b2.val % 0x40) * 0x40 + b3.val % 0x40, 4)

/-- The runes visited by `for _, ch := range s`, with `skip` bytes of the current rune
still to step over. -/
def rangeFrom : GoString → Nat → List Rune
  | [], _ => []
  | _ :: rest, skip + 1 => rangeFrom rest skip
  | b :: rest, 0 => (decodeRune (b :: rest)).1 :: rangeFrom rest ((decodeRune (b :: rest)).2 - 1)

/-- The rune sequence of a string: what `for _, ch := range s` iterates over. -/
def runes (s : GoString) : List Rune := rangeFrom s 0

/-- UTF-8 encoding of one rune, as Go's `utf8.AppendRune`: surrogates and values above
U+10FFFF are encoded as U+FFFD. -/
def encodeRune (r : Rune) : GoString :=
  if r ≤ 0x7F then [byte r]
  else if r ≤ 0x7FF then [byte (0xC0 + r / 0x40), byte (0x80 + r % 0x40)]
  else if r > 0x10FFFF ∨ (0xD800 ≤ r ∧ r ≤ 0xDFFF) then [byte 0xEF, byte 0xBF, byte 0xBD]
  else if r ≤ 0xFFFF then
    [byte (0xE0 + r / 0x1000), byte (0x80 + r / 0x40 % 0x40), byte (0x80 + r % 0x40)]
  else
    [byte (0xF0 + r / 0x40000), byte (0x80 + r / 0x1000 % 0x40),
     byte (0x80 + r / 0x40 % 0x40), byte (0x80 + r % 0x40)]

/-- UTF-8 encoding of a rune sequence. -/
def encodeRunes : List Rune → GoString
  | [] => []
  | r :: rs => encodeRune r ++ encodeRunes rs

/-- The Go string denoted by a source literal: the UTF-8 encoding of its characters. -/
def str (s : String) : GoString := encodeRunes (s.toList.map Char.toNat)

/-- Well-formed UTF-8 (Go's `utf8.ValidString`): decoding and re-encoding gives the
string back. -/
def ValidUTF8 (s : GoString) : Prop := encodeRunes (runes s) = s

instance (s : GoString) : Decidable (ValidUTF8 s) := by
  unfold ValidUTF8; infer_instance

/-! ## The trie -/

/-- A trie node: `children map[rune]*TrieNode` as an association list with distinct keys,
and the `isEnd` marker.  Each child is owned by exactly one parent. -/
inductive TrieNode where
  | mk (children : List (Rune × TrieNode)) (isEnd : Bool) : TrieNode

/-- The field `children`. -/
def TrieNode.children : TrieNode → List (Rune × TrieNode)
  | .mk cs _ => cs

/-- The field `isEnd`. -/
def TrieNode.isEnd : TrieNode → Bool
  | .mk _ e => e

/-- The function `NewTrieNode`: an empty map and `isEnd = false`. -/
def NewTrieNode : TrieNode := .mk [] false

/-- The trie: its root node. -/
structure Trie where
  root : TrieNode

/-- The function `NewTrie`: a trie whose root is a fresh node. -/
def NewTrie : Trie := ⟨NewTrieNode⟩

/-- Map lookup `m[k]` with the `ok` flag as `Option`. -/
def mapGet : List (Rune × TrieNode) → Rune → Option TrieNode
  | [], _ => none
  | (k', v) :: m, k => if k = k' then some v else mapGet m k

/-- Map assignment `m[k] = v`: overwrite the entry of `k`, or add one. -/
def mapSet : List (Rune × TrieNode) → Rune → TrieNode → List (Rune × TrieNode)
  | [], k, v => [(k, v)]
  | (k', v') :: m, k, v => if k = k' then (k, v) :: m else (k', v') :: mapSet m k v

/-- The loop of `Insert` from `node` over the remaining runes: a missing child is
created, the walk descends into it, and the last node reached gets `isEnd = true`.
The mutation through the pointer is returned as the updated subtree. -/
def insertLoop : TrieNode → List Rune → TrieNode
  | .mk children _, [] => .mk children true
  | .mk children isEnd, ch :: rest =>
    let child := match mapGet children ch with
      | some next => next
      | none => NewTrieNode
    .mk (mapSet children ch (insertLoop child rest)) isEnd

/-- The loop of `Search` from `node` over the remaining runes. -/
def searchLoop : TrieNode → List Rune → Bool
  | node, [] => node.isEnd
  | node, ch :: rest =>
    match mapGet node.children ch with
    | some next => searchLoop next rest
    | none => false

/-- The function `Trie.Insert`: adds a word to the trie. -/
def Trie.Insert (t : Trie) (word : GoString) : Trie := ⟨insertLoop t.root (runes word)⟩

/-- The function `Trie.Search`: whether the word is in the trie. -/
def Trie.Search (t : Trie) (word : GoString) : Bool := searchLoop t.root (runes word)

/-- The trie obtained from `t` by inserting the words of `ws` in order. -/
def insertAll (t : Trie) (ws : List GoString) : Trie := ws.foldl Trie.Insert t

/-! ## Levenshtein distance -/

/-- The three-argument `min` of `main.go`. -/
def min (a b c : Int) : Int :=
  if a < b ∧ a < c then a
  else if b < c then b
  else c

/-- The table `dp [][]int`. -/
abbrev Table := List (List Int)

/-- The allocation of `dp`: `m+1` rows of `n+1` zeroes. -/
def makeTable (m n : Nat) : Table := List.replicate (m + 1) (List.replicate (n + 1) 0)

/-- The read `dp[i][j]`. -/
def Table.get (dp : Table) (i j : Nat) : Int := List.getD (List.getD dp i []) j 0

/-- The write `dp[i][j] = v`. -/
def Table.set (dp : Table) (i j : Nat) (v : Int) : Table :=
  List.set dp i (List.set (List.getD dp i []) j v)

/-- The byte `s[i]`. -/
def byteAt (s : GoString) (i : Nat) : Byte := s.getD i 0

/-- First base-case loop: `dp[i][0] = i` for `i = 0..m`. -/
def initCol (m : Nat) (dp : Table) : Table :=
  (List.range (m + 1)).foldl (fun dp i => Table.set dp i 0 (i : Int)) dp

/-- Second base-case loop: `dp[0][j] = j` for `j = 0..n`. -/
def initRow (n : Nat) (dp : Table) : Table :=
  (List.range (n + 1)).foldl (fun dp j => Table.set dp 0 j (j : Int)) dp

/-- The body of the inner loop: compute `cost` and assign `dp[i][j]`. -/
def fillCell (a b : GoString) (i : Nat) (dp : Table) (j : Nat) : Table :=
  let cost : Int := if byteAt a (i - 1) ≠ byteAt b (j - 1) then 1 else 0
  Table.set dp i j
    (min (Table.get dp (i - 1) j + 1) (Table.get dp i (j - 1) + 1)
      (Table.get dp (i - 1) (j - 1) + cost))

/-- The inner loop: `j = 1..n` for a fixed row `i`. -/
def fillRow (a b : GoString) (n : Nat) (dp : Table) (i : Nat) : Table :=
  (List.range' 1 n).foldl (fillCell a b i) dp

/-- The outer loop: rows `i = 1..m`. -/
def fillTable (a b : GoString) (m n : Nat) (dp : Table) : Table :=
  (List.range' 1 m).foldl (fillRow a b n) dp

/-- The function `Levenshtein`: the edit distance computed by the table, over the bytes of `a` and
`b` (`len` and indexing are byte-wise). -/
def Levenshtein (a b : GoString) : Int :=
  let m := a.length
  let n := b.length
  if m = 0 then (n : Int)
  else if n = 0 then (m : Int)
  else
    let dp := makeTable m n
    let dp := initCol m dp
    let dp := initRow n dp
    let dp := fillTable a b m n dp
    Table.get dp m n

/-! ## Suggestions -/

/-- The filtering loop of `SuggestWords`: append every dictionary word within
`maxDistance`. -/
def collect (word : GoString) (dictionary : List GoString) (maxDistance : Int) :
    List GoString :=
  dictionary.foldl
    (fun suggestions dictWord =>
      if Levenshtein word dictWord ≤ maxDistance then suggestions ++ [dictWord]
      else suggestions)
    []

/-- The comparison closure handed to `sort.Slice`. -/
def lessByDistance (word : GoString) (x y : GoString) : Bool :=
  decide (Levenshtein word x < Levenshtein word y)

/-- A sorting routine in the role of the library's `sort.Slice`: from a `less` function
and a slice to the rearranged slice. -/
abbrev Sorter := (GoString → GoString → Bool) → List GoString → List GoString

/-- The function `SuggestWords`, with the library routine `sortSlice` as a parameter.  The result is
`none` when the slice expression `suggestions[:maxSuggestions]` is out of range, which
aborts the program. -/
def SuggestWords (sortSlice : Sorter) (word : GoString) (dictionary : List GoString)
    (maxDistance maxSuggestions : Int) : Option (List GoString) :=
  let suggestions := collect word dictionary maxDistance
  let suggestions := sortSlice (lessByDistance word) suggestions
  if (suggestions.length : Int) > maxSuggestions then
    if maxSuggestions < 0 then none
    else some (suggestions.take maxSuggestions.toNat)
  else some suggestions

/-- One iteration of the loop of `BestSuggestion` on the pair `(best, bestDistance)`. -/
def bestStep (word : GoString) (acc : GoString × Int) (s : GoString) : GoString × Int :=
  if Levenshtein word s < acc.2 then (s, Levenshtein word s) else acc

/-- The function `BestSuggestion`: the suggestion with the smallest distance, `""` for no suggestion. -/
def BestSuggestion (word : GoString) (suggestions : List GoString) : GoString :=
  match suggestions with
  | [] => []
  | s0 :: _ => (suggestions.foldl (bestStep word) (s0, Levenshtein word s0)).1

/-! ## Reference notions of edit distance -/

/-- The standard recurrence of the Levenshtein distance on two sequences. -/
def levRec {α : Type} [DecidableEq α] : List α → List α → Nat
  | [], ys => ys.length
  | x :: xs, [] => (x :: xs).length
  | x :: xs, y :: ys =>
    Min.min (levRec xs (y :: ys) + 1)
      (Min.min (levRec (x :: xs) ys + 1) (levRec xs ys + if x = y then 0 else 1))
termination_by xs ys => xs.length + ys.length

/-- One single-element edit: an insertion, a deletion or a substitution at any position. -/
inductive EditStep {α : Type} : List α → List α → Prop
  | insert (p s : List α) (x : α) : EditStep (p ++ s) (p ++ x :: s)
  | delete (p s : List α) (x : α) : EditStep (p ++ x :: s) (p ++ s)
  | substitute (p s : List α) (x y : α) : EditStep (p ++ x :: s) (p ++ y :: s)

/-- The relation `EditChain a b n`: `b` is obtained from `a` by `n` successive single-element edits. -/
inductive EditChain {α : Type} : List α → List α → Nat → Prop
  | refl (a : List α) : EditChain a a 0
  | step {a b c : List α} {n : Nat} : EditChain a b n → EditStep b c → EditChain a c (n + 1)

/-- The value the table is meant to hold in cell `(i, j)`: the reference distance of the
first `i` bytes of `a` and the first `j` bytes of `b` (read from their last byte back). -/
def cellSpec (a b : GoString) (i j : Nat) : Int :=
  (levRec (a.take i).reverse (b.take j).reverse : Nat)

/-- A table of `m+1` rows with `n+1` entries each. -/
def Table.Shape (m n : Nat) (dp : Table) : Prop :=
  dp.length = m + 1 ∧ ∀ i, i ≤ m → (List.getD dp i []).length = n + 1

/-- The invariant of the outer loop: rows `0..i` hold their final values and column 0 is
initialised in every row. -/
def RowsDone (a b : GoString) (dp : Table) (i : Nat) : Prop :=
  Table.Shape a.length b.length dp ∧
  (∀ i', i' ≤ a.length → Table.get dp i' 0 = cellSpec a b i' 0) ∧
  (∀ i' j', i' ≤ i → j' ≤ b.length → Table.get dp i' j' = cellSpec a b i' j')

/-! ## The contract of the sorting routine -/

/-- What `sort.Slice` promises for a comparison by an integer key: the slice is rearranged
(a permutation) into non-decreasing key order.  Nothing is promised about elements with
equal keys. -/
def SortsByKey (sortSlice : Sorter) : Prop :=
  ∀ (key : GoString → Int) (xs : List GoString),
    (sortSlice (fun x y => decide (key x < key y)) xs).Perm xs ∧
    (sortSlice (fun x y => decide (key x < key y)) xs).Pairwise (fun x y => key x ≤ key y)

/-- A stable sorting routine: insertion sort that never moves an element past one that
is not greater. -/
def stableSort : Sorter :=
  fun less xs => List.insertionSort (fun x y => less y x = false) xs

/-- A sorting routine that reverses the order of equal elements: the stable sort of the
reversed slice. -/
def reversingSort : Sorter :=
  fun less xs => stableSort less xs.reverse

/-- The edit distance between the code-point sequences of two strings, the unit the trie
walks over. -/
def runeDistance (a b : GoString) : Nat := levRec (runes a) (runes b)

/-! ## The library routine `sort.Slice`

`sort.Slice` belongs to Go's standard library, not to this program.  Below is the
pattern-defeating quicksort behind it (package `sort`, Go 1.19 and later), on a slice held
as a list: `Less(i, j)` compares the elements now at `i` and `j`, `Swap(i, j)` exchanges
them.  Slices of at most 12 elements are sorted by insertion sort alone. -/

/-- The element `data[i]`. -/
def elemAt (d : List GoString) (i : Nat) : GoString := d.getD i []

/-- The call `data.Less(i, j)`. -/
def lessAt (less : GoString → GoString → Bool) (d : List GoString) (i j : Nat) : Bool :=
  less (elemAt d i) (elemAt d j)

/-- The call `data.Swap(i, j)`. -/
def swapAt (d : List GoString) (i j : Nat) : List GoString :=
  (d.set i (elemAt d j)).set j (elemAt d i)

/-- The inner loop of `insertionSort_func`: `for j := i; j > a && Less(j, j-1); j--`,
swapping `j` and `j-1`.  The first argument counts the steps left, at most `j`. -/
def insertionInner (less : GoString → GoString → Bool) (a : Nat) :
    Nat → Nat → List GoString → List GoString
  | 0, _, d => d
  | steps + 1, j, d =>
    if a < j ∧ lessAt less d j (j - 1) = true then
      insertionInner less a steps (j - 1) (swapAt d j (j - 1))
    else d

/-- The function `insertionSort_func`: sorts `data[a:b]` by insertion sort. -/
def insertionSort_func (less : GoString → GoString → Bool) (d : List GoString) (a b : Nat) :
    List GoString :=
  (List.range' (a + 1) (b - (a + 1))).foldl (fun d i => insertionInner less a i i d) d

/-- The loop of `siftDown_func` from `root`; the first argument bounds the steps. -/
def siftDownLoop (less : GoString → GoString → Bool) (hi first : Nat) :
    Nat → Nat → List GoString → List GoString
  | 0, _, d => d
  | steps + 1, root, d =>
    if 2 * root + 1 ≥ hi then d
    else
      let child :=
        if 2 * root + 1 + 1 < hi ∧
            lessAt less d (first + (2 * root + 1)) (first + (2 * root + 1) + 1) = true
        then 2 * root + 1 + 1 else 2 * root + 1
      if lessAt less d (first + root) (first + child) = false then d
      else siftDownLoop less hi first steps child (swapAt d (first + root) (first + child))

/-- The function `siftDown_func`: restores the heap property on `data[lo:hi]`, rooted at `first`. -/
def siftDown_func (less : GoString → GoString → Bool) (d : List GoString)
    (lo hi first : Nat) : List GoString :=
  siftDownLoop less hi first hi lo d

/-- The function `heapSort_func`: sorts `data[a:b]` by heap sort. -/
def heapSort_func (less : GoString → GoString → Bool) (d : List GoString) (a b : Nat) :
    List GoString :=
  let first := a
  let lo := 0
  let hi := b - a
  let d := (List.range ((hi - 1) / 2 + 1)).reverse.foldl
    (fun d i => siftDown_func less d i hi first) d
  (List.range hi).reverse.foldl
    (fun d i => siftDown_func less (swapAt d first (first + i)) lo i first) d

/-- The hint of `choosePivot_func` on the order of the slice. -/
inductive sortedHint where
  | unknownHint
  | increasingHint
  | decreasingHint
  deriving DecidableEq

/-- The function `order2_func`: the two indices in the order of their elements, counting a swap. -/
def order2_func (less : GoString → GoString → Bool) (d : List GoString) (a b swaps : Nat) :
    Nat × Nat × Nat :=
  if lessAt less d b a = true then (b, a, swaps + 1) else (a, b, swaps)

/-- The function `median_func`: the index of the median of `data[a]`, `data[b]`, `data[c]`, with the
updated swap count. -/
def median_func (less : GoString → GoString → Bool) (d : List GoString) (a b c swaps : Nat) :
    Nat × Nat :=
  let r1 := order2_func less d a b swaps
  let r2 := order2_func less d r1.2.1 c r1.2.2
  let r3 := order2_func less d r1.1 r2.1 r2.2.2
  (r3.2.1, r3.2.2)

/-- The function `medianAdjacent_func`: the median of `data[a-1]`, `data[a]`, `data[a+1]`. -/
def medianAdjacent_func (less : GoString → GoString → Bool) (d : List GoString)
    (a swaps : Nat) : Nat × Nat :=
  median_func less d (a - 1) a (a + 1) swaps

/-- The function `choosePivot_func`: a pivot index in `data[a:b]` and a hint on the order. -/
def choosePivot_func (less : GoString → GoString → Bool) (d : List GoString) (a b : Nat) :
    Nat × sortedHint :=
  let l := b - a
  let i := a + l / 4 * 1
  let j := a + l / 4 * 2
  let k := a + l / 4 * 3
  let r :=
    if l ≥ 8 then
      if l ≥ 50 then
        let ri := medianAdjacent_func less d i 0
        let rj := medianAdjacent_func less d j ri.2
        let rk := medianAdjacent_func less d k rj.2
        median_func less d ri.1 rj.1 rk.1 rk.2
      else median_func less d i j k 0
    else (j, 0)
  if r.2 = 0 then (r.1, sortedHint.increasingHint)
  else if r.2 = 4 * 3 then (r.1, sortedHint.decreasingHint)
  else (r.1, sortedHint.unknownHint)

/-- The loop of `reverseRange_func`: `for i < j`, swap and step inwards. -/
def reverseLoop : Nat → Nat → Nat → List GoString → List GoString
  | 0, _, _, d => d
  | steps + 1, i, j, d => if i < j then reverseLoop steps (i + 1) (j - 1) (swapAt d i j) else d

/-- The function `reverseRange_func`: reverses `data[a:b]`. -/
def reverseRange_func (d : List GoString) (a b : Nat) : List GoString :=
  reverseLoop (b - a) a (b - 1) d

/-- A loop `for i <= j && p(i) { i++ }`; the first argument is `j + 1 - i`. -/
def scanUp (p : Nat → Bool) : Nat → Nat → Nat
  | 0, i => i
  | n + 1, i => if p i = true then scanUp p n (i + 1) else i

/-- A loop `for i <= j && p(j) { j-- }`; the first argument is `j + 1 - i`. -/
def scanDown (p : Nat → Bool) : Nat → Nat → Nat
  | 0, j => j
  | n + 1, j => if p j = true then scanDown p n (j - 1) else j

/-- The main loop of `partition_func`, ending with the pivot swapped into place. -/
def partitionLoop (less : GoString → GoString → Bool) (a : Nat) :
    Nat → List GoString → Nat → Nat → List GoString × Nat × Bool
  | 0, d, _, j => (swapAt d j a, j, false)
  | steps + 1, d, i, j =>
    let i1 := scanUp (fun i => lessAt less d i a) (j + 1 - i) i
    let j1 := scanDown (fun j => !lessAt less d j a) (j + 1 - i1) j
    if i1 > j1 then (swapAt d j1 a, j1, false)
    else partitionLoop less a steps (swapAt d i1 j1) (i1 + 1) (j1 - 1)

/-- The function `partition_func`: moves the pivot to the front, partitions `data[a:b]` around it and
returns the new slice, the final pivot index and whether the slice was already
partitioned. -/
def partition_func (less : GoString → GoString → Bool) (d : List GoString) (a b pivot : Nat) :
    List GoString × Nat × Bool :=
  let d := swapAt d a pivot
  let i := scanUp (fun i => lessAt less d i a) (b - 1 + 1 - (a + 1)) (a + 1)
  let j := scanDown (fun j => !lessAt less d j a) (b - 1 + 1 - i) (b - 1)
  if i > j then (swapAt d j a, j, true)
  else partitionLoop less a (b - a) (swapAt d i j) (i + 1) (j - 1)

/-- The loop of `partitionEqual_func`. -/
def partitionEqualLoop (less : GoString → GoString → Bool) (a : Nat) :
    Nat → List GoString → Nat → Nat → List GoString × Nat
  | 0, d, i, _ => (d, i)
  | steps + 1, d, i, j =>
    let i1 := scanUp (fun i => !lessAt less d a i) (j + 1 - i) i
    let j1 := scanDown (fun j => lessAt less d a j) (j + 1 - i1) j
    if i1 > j1 then (d, i1)
    else partitionEqualLoop less a steps (swapAt d i1 j1) (i1 + 1) (j1 - 1)

/-- The function `partitionEqual_func`: partitions `data[a:b]` into the elements equal to the pivot
followed by the greater ones. -/
def partitionEqual_func (less : GoString → GoString → Bool) (d : List GoString)
    (a b pivot : Nat) : List GoString × Nat :=
  partitionEqualLoop less a (b - a + 1) (swapAt d a pivot) (a + 1) (b - 1)

/-- The left shift of `partialInsertionSort_func`: `for j := i-1; j >= 1; j--`. -/
def shiftLeft (less : GoString → GoString → Bool) : Nat → List GoString → List GoString
  | 0, d => d
  | j + 1, d => if lessAt less d (j + 1) j = false then d else shiftLeft less j (swapAt d (j + 1) j)

/-- The right shift of `partialInsertionSort_func`: `for j := i+1; j < b; j++`; the first
argument is `b - j`. -/
def shiftRight (less : GoString → GoString → Bool) : Nat → Nat → List GoString → List GoString
  | 0, _, d => d
  | n + 1, j, d =>
    if lessAt less d j (j - 1) = false then d
    else shiftRight less n (j + 1) (swapAt d j (j - 1))

/-- The loop of `partialInsertionSort_func` over at most `maxSteps = 5` rounds. -/
def partialInsertionLoop (less : GoString → GoString → Bool) (a b : Nat) :
    Nat → Nat → List GoString → List GoString × Bool
  | 0, _, d => (d, false)
  | rounds + 1, i, d =>
    let i1 := scanUp (fun i => !lessAt less d i (i - 1)) (b - i) i
    if i1 = b then (d, true)
    else if b - a < 50 then (d, false)
    else
      let d1 := swapAt d i1 (i1 - 1)
      let d2 := if i1 - a ≥ 2 then shiftLeft less (i1 - 1) d1 else d1
      let d3 := if b - i1 ≥ 2 then shiftRight less (b - (i1 + 1)) (i1 + 1) d2 else d2
      partialInsertionLoop less a b rounds i1 d3

/-- The function `partialInsertionSort_func`: sorts a nearly sorted `data[a:b]` and reports success. -/
def partialInsertionSort_func (less : GoString → GoString → Bool) (d : List GoString)
    (a b : Nat) : List GoString × Bool :=
  partialInsertionLoop less a b 5 (a + 1) d

/-- The library function `bits.Len`: the number of bits needed to write `n`; the first argument bounds the
steps. -/
def bitsLen : Nat → Nat → Nat
  | 0, _ => 0
  | steps + 1, n => if n = 0 then 0 else 1 + bitsLen steps (n / 2)

/-- A step of the xorshift generator of `breakPatterns_func` on its 64-bit state; only the
elements that routine scatters depend on the shift amounts. -/
def xorshiftNext (r : Nat) : Nat :=
  let r := Nat.xor r (r * 2 ^ 13 % 2 ^ 64)
  let r := Nat.xor r (r / 2 ^ 7)
  Nat.xor r (r * 2 ^ 17 % 2 ^ 64)

/-- The function `breakPatterns_func`: scatters three elements around the middle of `data[a:b]`. -/
def breakPatterns_func (d : List GoString) (a b : Nat) : List GoString :=
  let length := b - a
  if length ≥ 8 then
    let modulus := 2 ^ bitsLen (length + 1) length
    let idx := a + (length / 4) * 2 - 1
    let r1 := xorshiftNext length
    let r2 := xorshiftNext r1
    let r3 := xorshiftNext r2
    let other := fun (r : Nat) => if r % modulus ≥ length then r % modulus - length else r % modulus
    let d := swapAt d (idx - 1 + 0) (a + other r1)
    let d := swapAt d (idx - 1 + 1) (a + other r2)
    swapAt d (idx - 1 + 2) (a + other r3)
  else d

/-- The function `pdqsort_func`: sorts `data[a:b]`.  The first argument bounds the number of loop rounds
and nested calls; `none` means the bound was too small. -/
def pdqsort_func (less : GoString → GoString → Bool) :
    Nat → List GoString → Nat → Nat → Nat → Bool → Bool → Option (List GoString)
  | 0, _, _, _, _, _, _ => none
  | steps + 1, d, a, b, limit, wasBalanced, wasPartitioned =>
    let length := b - a
    if length ≤ 12 then some (insertionSort_func less d a b)
    else if limit = 0 then some (heapSort_func less d a b)
    else
      let d1 := if wasBalanced then d else breakPatterns_func d a b
      let limit1 := if wasBalanced then limit else limit - 1
      let ph := choosePivot_func less d1 a b
      let d2 := if ph.2 = sortedHint.decreasingHint then reverseRange_func d1 a b else d1
      let pivot := if ph.2 = sortedHint.decreasingHint then (b - 1) - (ph.1 - a) else ph.1
      let hint :=
        if ph.2 = sortedHint.decreasingHint then sortedHint.increasingHint else ph.2
      let tried :=
        if wasBalanced ∧ wasPartitioned ∧ hint = sortedHint.increasingHint then
          partialInsertionSort_func less d2 a b
        else (d2, false)
      if tried.2 = true then some tried.1
      else if 0 < a ∧ lessAt less tried.1 (a - 1) pivot = false then
        let pe := partitionEqual_func less tried.1 a b pivot
        pdqsort_func less steps pe.1 pe.2 b limit1 wasBalanced wasPartitioned
      else
        let pr := partition_func less tried.1 a b pivot
        let mid := pr.2.1
        let leftLen := mid - a
        let rightLen := b - mid
        let balanceThreshold := length / 8
        if leftLen < rightLen then
          match pdqsort_func less steps pr.1 a mid limit1 true true with
          | none => none
          | some d3 =>
            pdqsort_func less steps d3 (mid + 1) b limit1
              (decide (leftLen ≥ balanceThreshold)) pr.2.2
        else
          match pdqsort_func less steps pr.1 (mid + 1) b limit1 true true with
          | none => none
          | some d3 =>
            pdqsort_func less steps d3 a mid limit1
              (decide (rightLen ≥ balanceThreshold)) pr.2.2

/-- The library call `sort.Slice(x, less)`: `pdqsort_func` on the whole slice with `limit = bits.Len(n)`.
The bound on the rounds is never reached, each round either returning or shrinking the
range; should it be, the slice is left as it is. -/
def sortSlice : Sorter := fun less x =>
  match pdqsort_func less (2 * x.length + 2) x 0 x.length (bitsLen (x.length + 1) x.length)
      true true with
  | some d => d
  | none => x

/-- Insertion of `x` at the end of a sorted run held in reverse: `x` moves past every
element it is less than, and stops at the first one it is not less than. -/
def insertBack (less : GoString → GoString → Bool) (x : GoString) :
    List GoString → List GoString
  | [] => [x]
  | y :: rp => if less x y = true then y :: insertBack less x rp else x :: y :: rp

/-- The sorted run, in reverse, after inserting the elements of a slice one by one. -/
def sortedRun (less : GoString → GoString → Bool) (xs : List GoString) : List GoString :=
  xs.foldl (fun rp x => insertBack less x rp) []

/-- A vocabulary of thirteen one-letter words: twelve at distance 1 from the query `"a"`,
then `"a"` itself. -/
def thirteenWords : List GoString :=
  [str "b", str "c", str "d", str "e", str "f", str "g", str "h", str "i", str "j",
   str "k", str "l", str "m", str "a"]

/-! ## `Levenshtein` with checked accesses

The same function with every index expression checked as the Go runtime checks it, and
with every table cell marked as assigned or not, so that a read of a cell the code has not
yet assigned is reported too. -/

/-- What can go wrong in an access: an index outside the slice or string, or a read of a
cell that no assignment has reached yet. -/
inductive Fault where
  | indexOutOfRange
  | readBeforeWrite
  deriving DecidableEq

/-- The table `dp` with each cell either unassigned (`none`) or holding its value. -/
abbrev CheckedTable := List (List (Option Int))

/-- The allocation of `dp`: `m+1` rows of `n+1` cells, none assigned yet. -/
def makeCheckedTable (m n : Nat) : CheckedTable :=
  List.replicate (m + 1) (List.replicate (n + 1) none)

/-- The content of cell `(i, j)`, for indices known to be in range. -/
def CheckedTable.cell (dp : CheckedTable) (i j : Nat) : Option Int :=
  List.getD (List.getD dp i []) j none

/-- The read `dp[i][j]`: the indices must lie inside the table and the cell must have been
assigned. -/
def CheckedTable.read (dp : CheckedTable) (i j : Int) : Except Fault Int :=
  if i < 0 ∨ j < 0 ∨ (dp.length : Int) ≤ i ∨
      ((List.getD dp i.toNat []).length : Int) ≤ j then
    Except.error Fault.indexOutOfRange
  else
    match CheckedTable.cell dp i.toNat j.toNat with
    | none => Except.error Fault.readBeforeWrite
    | some v => Except.ok v

/-- The write `dp[i][j] = v`: the indices must lie inside the table. -/
def CheckedTable.write (dp : CheckedTable) (i j : Int) (v : Int) : Except Fault CheckedTable :=
  if i < 0 ∨ j < 0 ∨ (dp.length : Int) ≤ i ∨
      ((List.getD dp i.toNat []).length : Int) ≤ j then
    Except.error Fault.indexOutOfRange
  else
    Except.ok (List.set dp i.toNat (List.set (List.getD dp i.toNat []) j.toNat (some v)))

/-- The byte `s[i]`, with the index checked. -/
def byteAtChecked (s : GoString) (i : Int) : Except Fault Byte :=
  if i < 0 ∨ (s.length : Int) ≤ i then Except.error Fault.indexOutOfRange
  else Except.ok (byteAt s i.toNat)

/-- First base-case loop with checked writes. -/
def initColChecked (m : Nat) (dp : CheckedTable) : Except Fault CheckedTable :=
  (List.range (m + 1)).foldlM (fun dp (i : Nat) => CheckedTable.write dp (i : Int) 0 (i : Int)) dp

/-- Second base-case loop with checked writes. -/
def initRowChecked (n : Nat) (dp : CheckedTable) : Except Fault CheckedTable :=
  (List.range (n + 1)).foldlM (fun dp (j : Nat) => CheckedTable.write dp 0 (j : Int) (j : Int)) dp

/-- The body of the inner loop with checked accesses, in the order the code makes them:
`a[i-1]`, `b[j-1]`, `dp[i-1][j]`, `dp[i][j-1]`, `dp[i-1][j-1]`, then the write of
`dp[i][j]`. -/
def fillCellChecked (a b : GoString) (i : Nat) (dp : CheckedTable) (j : Nat) :
    Except Fault CheckedTable := do
  let x ← byteAtChecked a ((i : Int) - 1)
  let y ← byteAtChecked b ((j : Int) - 1)
  let cost : Int := if x ≠ y then 1 else 0
  let deletion ← CheckedTable.read dp ((i : Int) - 1) (j : Int)
  let insertion ← CheckedTable.read dp (i : Int) ((j : Int) - 1)
  let substitution ← CheckedTable.read dp ((i : Int) - 1) ((j : Int) - 1)
  CheckedTable.write dp (i : Int) (j : Int)
    (min (deletion + 1) (insertion + 1) (substitution + cost))

/-- The inner loop with checked accesses. -/
def fillRowChecked (a b : GoString) (n : Nat) (dp : CheckedTable) (i : Nat) :
    Except Fault CheckedTable :=
  (List.range' 1 n).foldlM (fillCellChecked a b i) dp

/-- The outer loop with checked accesses. -/
def fillTableChecked (a b : GoString) (m n : Nat) (dp : CheckedTable) :
    Except Fault CheckedTable :=
  (List.range' 1 m).foldlM (fillRowChecked a b n) dp

/-- The function `Levenshtein` with every access checked: the distance, or the fault of
the first access that goes wrong. -/
def LevenshteinChecked (a b : GoString) : Except Fault Int :=
  let m := a.length
  let n := b.length
  if m = 0 then Except.ok (n : Int)
  else if n = 0 then Except.ok (m : Int)
  else do
    let dp ← initColChecked m (makeCheckedTable m n)
    let dp ← initRowChecked n dp
    let dp ← fillTableChecked a b m n dp
    CheckedTable.read dp (m : Int) (n : Int)

/-- A checked table of `m+1` rows with `n+1` cells each. -/
def CheckedTable.Shape (m n : Nat) (dp : CheckedTable) : Prop :=
  dp.length = m + 1 ∧ ∀ i, i ≤ m → (List.getD dp i []).length = n + 1

/-- The invariant of the outer loop on the checked table: rows `0..i` are assigned with
their final values and column 0 is assigned in every row. -/
def RowsAssigned (a b : GoString) (dp : CheckedTable) (i : Nat) : Prop :=
  CheckedTable.Shape a.length b.length dp ∧
  (∀ i', i' ≤ a.length → CheckedTable.cell dp i' 0 = some (cellSpec a b i' 0)) ∧
  (∀ i' j', i' ≤ i → j' ≤ b.length → CheckedTable.cell dp i' j' = some (cellSpec a b i' j'))

/-! ## Theorems -/

/-! ### The trie -/

theorem mapGet_mapSet (m : List (Rune × TrieNode)) (k k' : Rune) (v : TrieNode) :
    mapGet (mapSet m k v) k' = if k' = k then some v else mapGet m k' := by
  induction m with
  | nil => simp [mapSet, mapGet]
  | cons p m ih =>
    obtain ⟨k0, v0⟩ := p
    by_cases h : k = k0
    · subst h
      by_cases h' : k' = k <;> simp [mapSet, mapGet, h']
    · by_cases h' : k' = k0
      · subst h'
        have : ¬ k' = k := fun e => h e.symm
        simp [mapSet, mapGet, h, this]
      · simp [mapSet, mapGet, h, h', ih]

theorem searchLoop_insertLoop (w : List Rune) :
    ∀ (node : TrieNode) (v : List Rune),
      searchLoop (insertLoop node w) v = (decide (v = w) || searchLoop node v) := by
  induction w with
  | nil =>
    intro node v
    obtain ⟨cs, e⟩ := node
    cases v with
    | nil => simp [insertLoop, searchLoop, TrieNode.isEnd]
    | cons c v => simp [insertLoop, searchLoop, TrieNode.children]
  | cons ch rest ih =>
    intro node v
    obtain ⟨cs, e⟩ := node
    cases v with
    | nil => simp [insertLoop, searchLoop, TrieNode.isEnd]
    | cons c v =>
      simp only [insertLoop, searchLoop, TrieNode.children, mapGet_mapSet]
      by_cases hc : c = ch
      · subst hc
        simp only [if_true, ih]
        cases hg : mapGet cs c with
        | none =>
          have hnew : searchLoop NewTrieNode v = false := by
            cases v <;> simp [searchLoop, NewTrieNode, TrieNode.isEnd, TrieNode.children, mapGet]
          simp [hnew]
        | some next => simp
      · simp [hc]

theorem searchLoop_new (v : List Rune) : searchLoop NewTrieNode v = false := by
  cases v <;> simp [searchLoop, NewTrieNode, TrieNode.isEnd, TrieNode.children, mapGet]

theorem search_insert (t : Trie) (w v : GoString) :
    (t.Insert w).Search v = (decide (runes v = runes w) || t.Search v) := by
  simp [Trie.Insert, Trie.Search, searchLoop_insertLoop]

theorem search_insertAll (ws : List GoString) :
    ∀ (t : Trie) (W : GoString),
      (insertAll t ws).Search W = true ↔ (t.Search W = true ∨ ∃ V ∈ ws, runes V = runes W) := by
  induction ws with
  | nil => intro t W; simp [insertAll]
  | cons w ws ih =>
    intro t W
    have h := ih (t.Insert w) W
    simp only [insertAll, List.foldl_cons] at h ⊢
    rw [h, search_insert]
    simp only [Bool.or_eq_true, decide_eq_true_eq, List.mem_cons, exists_eq_or_imp]
    constructor
    · rintro ((h1 | h1) | h1)
      · exact Or.inr (Or.inl h1.symm)
      · exact Or.inl h1
      · exact Or.inr (Or.inr h1)
    · rintro (h1 | h1 | h1)
      · exact Or.inl (Or.inr h1)
      · exact Or.inl (Or.inl h1.symm)
      · exact Or.inr h1

theorem search_newTrie (W : GoString) : NewTrie.Search W = false := by
  simp [Trie.Search, NewTrie, searchLoop_new]

theorem search_built_iff (ws : List GoString) (W : GoString) :
    (insertAll NewTrie ws).Search W = true ↔ ∃ V ∈ ws, runes V = runes W := by
  rw [search_insertAll, search_newTrie]; simp

theorem rangeFrom_eq_nil (s : GoString) : rangeFrom s 0 = [] → s = [] := by
  cases s with
  | nil => intro _; rfl
  | cons b rest => intro h; simp [rangeFrom] at h

theorem runes_eq_nil_iff (s : GoString) : runes s = [] ↔ s = [] := by
  constructor
  · exact rangeFrom_eq_nil s
  · intro h; subst h; rfl

theorem eq_of_runes_eq_of_valid {V W : GoString} (hV : ValidUTF8 V) (hW : ValidUTF8 W)
    (h : runes V = runes W) : V = W := by
  unfold ValidUTF8 at hV hW
  rw [← hV, ← hW, h]

/-- C1: in a trie built from a new trie by any sequence of `Insert` calls, `Search`
returns true for every word of the sequence, whatever was inserted before or after it. -/
theorem search_true_of_inserted (ws : List GoString) (W : GoString) (h : W ∈ ws) :
    (insertAll NewTrie ws).Search W = true :=
  (search_built_iff ws W).2 ⟨W, h, rfl⟩

theorem search_true_of_inserted_witness :
    str "help" ∈ [str "hello", str "help", str "held"] ∧
      (insertAll NewTrie [str "hello", str "help", str "held"]).Search (str "help") = true :=
  ⟨by decide, search_true_of_inserted _ _ (by decide)⟩

/-- C2 as stated fails: with only the one-byte string `"\xff"` inserted, `Search` returns
true for the different string `"\xef\xbf\xbd"` (the encoding of U+FFFD), because `range`
reads the invalid byte as U+FFFD. -/
theorem search_true_of_not_inserted :
    [byte 0xEF, byte 0xBF, byte 0xBD] ∉ [[byte 0xFF]] ∧
      (insertAll NewTrie [[byte 0xFF]]).Search [byte 0xEF, byte 0xBF, byte 0xBD] = true := by
  decide

/-- C2, amended: in a trie built from a new trie by `Insert` calls, `Search(W)` returns
false for every `W` whose rune sequence (as `range` decodes it) differs from that of every
inserted string.  This covers every `W` not equal to an inserted string when `W` and the
inserted strings are valid UTF-8, and the empty string whenever it was not inserted. -/
theorem search_false_of_not_inserted (ws : List GoString) (W : GoString) :
    ((∀ V ∈ ws, runes V ≠ runes W) → (insertAll NewTrie ws).Search W = false) ∧
    ((∀ V ∈ ws, ValidUTF8 V) → ValidUTF8 W → W ∉ ws →
      (insertAll NewTrie ws).Search W = false) ∧
    (W = [] → [] ∉ ws → (insertAll NewTrie ws).Search W = false) := by
  have key : (∀ V ∈ ws, runes V ≠ runes W) → (insertAll NewTrie ws).Search W = false := by
    intro h
    cases hs : (insertAll NewTrie ws).Search W with
    | false => rfl
    | true =>
      obtain ⟨V, hV, e⟩ := (search_built_iff ws W).1 hs
      exact absurd e (h V hV)
  refine ⟨key, ?_, ?_⟩
  · intro hv hW hn
    apply key
    intro V hV e
    exact hn (eq_of_runes_eq_of_valid (hv V hV) hW e ▸ hV)
  · intro hW hn
    subst hW
    apply key
    intro V hV e
    have : V = [] := (runes_eq_nil_iff V).1 (by simpa [runes] using e)
    exact hn (this ▸ hV)

theorem search_false_of_not_inserted_witness :
    (insertAll NewTrie [str "hello", str "help"]).Search (str "hel") = false :=
  (search_false_of_not_inserted [str "hello", str "help"] (str "hel")).1 (by decide)

/-! ### The reference distance -/

section Chains

variable {α : Type}

theorem editChain_trans {a b c : List α} {n k : Nat} (h1 : EditChain a b n)
    (h2 : EditChain b c k) : EditChain a c (n + k) := by
  induction h2 with
  | refl => exact h1
  | step _ hs ih => exact EditChain.step ih hs

theorem editChain_single {a b : List α} (h : EditStep a b) : EditChain a b 1 :=
  EditChain.step (EditChain.refl a) h

theorem editStep_cons (c : α) {a b : List α} (h : EditStep a b) :
    EditStep (c :: a) (c :: b) := by
  cases h with
  | insert p s x => exact EditStep.insert (c :: p) s x
  | delete p s x => exact EditStep.delete (c :: p) s x
  | substitute p s x y => exact EditStep.substitute (c :: p) s x y

theorem editChain_cons (c : α) {a b : List α} {n : Nat} (h : EditChain a b n) :
    EditChain (c :: a) (c :: b) n := by
  induction h with
  | refl => exact EditChain.refl _
  | step _ hs ih => exact EditChain.step ih (editStep_cons c hs)

theorem editChain_cast {a b : List α} {n k : Nat} (h : EditChain a b n) (e : n = k) :
    EditChain a b k := e ▸ h

theorem editStep_reverse {a b : List α} (h : EditStep a b) :
    EditStep a.reverse b.reverse := by
  cases h with
  | insert p s x =>
    simpa using EditStep.insert s.reverse p.reverse x
  | delete p s x =>
    simpa using EditStep.delete s.reverse p.reverse x
  | substitute p s x y =>
    simpa using EditStep.substitute s.reverse p.reverse x y

theorem editChain_reverse {a b : List α} {n : Nat} (h : EditChain a b n) :
    EditChain a.reverse b.reverse n := by
  induction h with
  | refl => exact EditChain.refl _
  | step _ hs ih => exact EditChain.step ih (editStep_reverse hs)

theorem editStep_symm {a b : List α} (h : EditStep a b) : EditStep b a := by
  cases h with
  | insert p s x => exact EditStep.delete p s x
  | delete p s x => exact EditStep.insert p s x
  | substitute p s x y => exact EditStep.substitute p s y x

end Chains

section Reference

variable {α : Type} [DecidableEq α]

theorem levRec_nil_left (ys : List α) : levRec [] ys = ys.length := by
  simp [levRec]

theorem levRec_nil_right (xs : List α) : levRec xs [] = xs.length := by
  cases xs <;> simp [levRec]

theorem levRec_cons_cons (x y : α) (xs ys : List α) :
    levRec (x :: xs) (y :: ys) =
      Min.min (levRec xs (y :: ys) + 1)
        (Min.min (levRec (x :: xs) ys + 1) (levRec xs ys + if x = y then 0 else 1)) := by
  simp [levRec]

theorem levRec_self (a : List α) : levRec a a = 0 := by
  induction a with
  | nil => simp [levRec_nil_left]
  | cons x xs ih => rw [levRec_cons_cons]; simp [ih]

/-- Dropping the head of the first sequence costs at most one. -/
theorem levRec_cons_left_le (x : α) (xs ys : List α) :
    levRec (x :: xs) ys ≤ levRec xs ys + 1 := by
  induction ys generalizing xs with
  | nil => simp [levRec_nil_right]
  | cons y ys ih =>
    rw [levRec_cons_cons]
    omega

/-- Adding a head to the second sequence costs at most one. -/
theorem levRec_cons_right_le (y : α) (xs ys : List α) :
    levRec xs (y :: ys) ≤ levRec xs ys + 1 := by
  cases xs with
  | nil => simp [levRec_nil_left]
  | cons x xs =>
    rw [levRec_cons_cons]
    omega

theorem levRec_cons_cons_le (x y : α) (xs ys : List α) :
    levRec (x :: xs) (y :: ys) ≤ levRec xs ys + 1 := by
  rw [levRec_cons_cons]
  split <;> omega

/-- Removing the head of the second sequence costs at most one. -/
theorem levRec_le_cons_right (y : α) (xs ys : List α) :
    levRec xs ys ≤ levRec xs (y :: ys) + 1 := by
  induction xs with
  | nil => simp only [levRec_nil_left, List.length_cons]; omega
  | cons x xs ih =>
    have h1 := levRec_cons_left_le x xs ys
    rw [levRec_cons_cons]
    split <;> omega

/-- Replacing the head of the second sequence costs at most one. -/
theorem levRec_subst_head_le (y z : α) (xs ys : List α) :
    levRec xs (z :: ys) ≤ levRec xs (y :: ys) + 1 := by
  induction xs with
  | nil => simp [levRec_nil_left]
  | cons x xs ih =>
    have h1 := levRec_cons_left_le x xs (z :: ys)
    have h2 := levRec_cons_right_le z (x :: xs) ys
    have h3 := levRec_cons_cons_le x z xs ys
    rw [levRec_cons_cons x y]
    split <;> omega

/-- A bound that holds for a pair of second arguments is kept under a common head. -/
theorem levRec_cons_context (c : α) (s t : List α)
    (h : ∀ xs, levRec xs t ≤ levRec xs s + 1) :
    ∀ xs, levRec xs (c :: t) ≤ levRec xs (c :: s) + 1 := by
  intro xs
  induction xs with
  | nil =>
    have := h []
    simp only [levRec_nil_left] at this
    simp [levRec_nil_left]; omega
  | cons x xs ih =>
    have h1 := levRec_cons_left_le x xs (c :: t)
    have h2 := levRec_cons_right_le c (x :: xs) t
    have h3 := h (x :: xs)
    have h4 := h xs
    rw [levRec_cons_cons x c xs s, levRec_cons_cons x c xs t]
    split <;> omega

theorem levRec_append_context (p s t : List α)
    (h : ∀ xs, levRec xs t ≤ levRec xs s + 1) :
    ∀ xs, levRec xs (p ++ t) ≤ levRec xs (p ++ s) + 1 := by
  induction p with
  | nil => simpa using h
  | cons c p ih => exact levRec_cons_context c (p ++ s) (p ++ t) ih

/-- One edit of the second sequence changes the distance by at most one. -/
theorem levRec_editStep_le {b c : List α} (h : EditStep b c) (xs : List α) :
    levRec xs c ≤ levRec xs b + 1 := by
  cases h with
  | insert p s x =>
    exact levRec_append_context p s (x :: s) (fun xs => levRec_cons_right_le x xs s) xs
  | delete p s x =>
    exact levRec_append_context p (x :: s) s (fun xs => levRec_le_cons_right x xs s) xs
  | substitute p s x y =>
    exact levRec_append_context p (x :: s) (y :: s) (fun xs => levRec_subst_head_le x y xs s) xs

/-- No chain of edits is shorter than the reference distance. -/
theorem levRec_le_of_editChain {a b : List α} {n : Nat} (h : EditChain a b n) :
    levRec a b ≤ n := by
  induction h with
  | refl => simp [levRec_self]
  | step _ hs ih =>
    have := levRec_editStep_le hs a
    omega

/-- The reference distance is reached by a chain of edits. -/
theorem editChain_levRec (a b : List α) : EditChain a b (levRec a b) := by
  induction a generalizing b with
  | nil =>
    induction b with
    | nil => exact editChain_cast (EditChain.refl ([] : List α)) (by simp [levRec_nil_left])
    | cons y ys ih =>
      have h : EditChain ([] : List α) (y :: ys) (levRec [] ys + 1) :=
        EditChain.step ih (EditStep.insert [] ys y)
      exact editChain_cast h (by simp [levRec_nil_left])
  | cons x xs iha =>
    induction b with
    | nil =>
      have h : EditChain (x :: xs) [] (1 + levRec xs []) :=
        editChain_trans (editChain_single (EditStep.delete [] xs x)) (iha [])
      exact editChain_cast h (by simp [levRec_nil_right]; omega)
    | cons y ys ihb =>
      have hdel : EditChain (x :: xs) (y :: ys) (1 + levRec xs (y :: ys)) :=
        editChain_trans (editChain_single (EditStep.delete [] xs x)) (iha (y :: ys))
      have hins : EditChain (x :: xs) (y :: ys) (levRec (x :: xs) ys + 1) :=
        EditChain.step ihb (EditStep.insert [] ys y)
      have hsub : EditChain (x :: xs) (y :: ys) (levRec xs ys + if x = y then 0 else 1) := by
        by_cases hxy : x = y
        · subst hxy
          simpa using editChain_cons x (iha ys)
        · simpa [hxy] using
            EditChain.step (editChain_cons x (iha ys)) (EditStep.substitute [] ys x y)
      rw [levRec_cons_cons]
      rcases Nat.le_total (levRec xs (y :: ys) + 1)
          (Min.min (levRec (x :: xs) ys + 1) (levRec xs ys + if x = y then 0 else 1)) with h | h
      · rw [Nat.min_eq_left h]; exact editChain_cast hdel (by omega)
      · rw [Nat.min_eq_right h]
        rcases Nat.le_total (levRec (x :: xs) ys + 1)
            (levRec xs ys + if x = y then 0 else 1) with h' | h'
        · rw [Nat.min_eq_left h']; exact hins
        · rw [Nat.min_eq_right h']; exact hsub

theorem levRec_reverse (a b : List α) : levRec a.reverse b.reverse = levRec a b := by
  apply Nat.le_antisymm
  · exact levRec_le_of_editChain (editChain_reverse (editChain_levRec a b))
  · have := levRec_le_of_editChain (editChain_reverse (editChain_levRec a.reverse b.reverse))
    simpa using this

theorem levRec_eq_zero_iff (a b : List α) : levRec a b = 0 ↔ a = b := by
  constructor
  · intro h
    have hc := editChain_levRec a b
    rw [h] at hc
    cases hc
    rfl
  · intro h; subst h; exact levRec_self a

end Reference

/-! ### The table of `Levenshtein` -/

theorem min_eq_min (a b c : Int) : min a b c = Min.min a (Min.min b c) := by
  unfold min
  split
  · omega
  · split <;> omega

theorem Table.shape_make (m n : Nat) : Table.Shape m n (makeTable m n) := by
  constructor
  · simp [makeTable]
  · intro i hi
    simp [makeTable, List.getD_eq_getElem?_getD, List.getElem?_replicate, Nat.lt_succ_of_le hi]

theorem Table.shape_set {m n : Nat} {dp : Table} (h : Table.Shape m n dp) (i j : Nat) (v : Int) :
    Table.Shape m n (Table.set dp i j v) := by
  obtain ⟨h1, h2⟩ := h
  constructor
  · simp [Table.set, h1]
  · intro i' hi'
    have := h2 i' hi'
    by_cases e : i = i'
    · subst e
      simp [Table.set, List.getD_eq_getElem?_getD, List.getElem?_set, h1, Nat.lt_succ_of_le hi'] at this ⊢
      exact this
    · simp [Table.set, List.getD_eq_getElem?_getD, List.getElem?_set, e] at this ⊢
      exact this

theorem Table.get_set {m n : Nat} {dp : Table} (h : Table.Shape m n dp) {i j : Nat}
    (hi : i ≤ m) (hj : j ≤ n) (v : Int) (i' j' : Nat) :
    Table.get (Table.set dp i j v) i' j' = if i' = i ∧ j' = j then v else Table.get dp i' j' := by
  obtain ⟨h1, h2⟩ := h
  have hrow := h2 i hi
  by_cases e : i = i'
  · subst e
    by_cases e' : j = j'
    · subst e'
      simp [Table.get, Table.set, List.getD_eq_getElem?_getD, List.getElem?_set, h1,
        Nat.lt_succ_of_le hi] at hrow ⊢
      simp [hrow, Nat.lt_succ_of_le hj]
    · have e'' : ¬ j' = j := fun x => e' x.symm
      simp [Table.get, Table.set, List.getD_eq_getElem?_getD, List.getElem?_set, h1,
        Nat.lt_succ_of_le hi, e', e'']
  · have e'' : ¬ i' = i := fun x => e x.symm
    simp [Table.get, Table.set, List.getD_eq_getElem?_getD, List.getElem?_set, e, e'']

theorem foldl_range_inv {β : Type} (f : β → Nat → β) (Q : β → Nat → Prop) (n : Nat) (x : β)
    (h0 : Q x 0) (hstep : ∀ y k, k < n → Q y k → Q (f y k) (k + 1)) :
    Q ((List.range n).foldl f x) n := by
  induction n with
  | zero => simpa using h0
  | succ n ih =>
    rw [List.range_succ, List.foldl_append]
    simp only [List.foldl_cons, List.foldl_nil]
    exact hstep _ n (Nat.lt_succ_self n)
      (ih (fun y k hk => hstep y k (Nat.lt_succ_of_lt hk)))

theorem foldl_range'_inv {β : Type} (f : β → Nat → β) (Q : β → Nat → Prop) (n : Nat) (x : β)
    (h0 : Q x 0) (hstep : ∀ y k, k < n → Q y k → Q (f y (k + 1)) (k + 1)) :
    Q ((List.range' 1 n).foldl f x) n := by
  induction n with
  | zero => simpa using h0
  | succ n ih =>
    rw [List.range'_concat, List.foldl_append]
    simp only [List.foldl_cons, List.foldl_nil]
    have e : 1 + 1 * n = n + 1 := by omega
    rw [e]
    exact hstep _ n (Nat.lt_succ_self n)
      (ih (fun y k hk => hstep y k (Nat.lt_succ_of_lt hk)))

theorem cellSpec_zero_right (a b : GoString) {i : Nat} (hi : i ≤ a.length) :
    cellSpec a b i 0 = (i : Int) := by
  simp [cellSpec, levRec_nil_right, Nat.min_eq_left hi]

theorem cellSpec_zero_left (a b : GoString) {j : Nat} (hj : j ≤ b.length) :
    cellSpec a b 0 j = (j : Int) := by
  simp [cellSpec, levRec_nil_left, Nat.min_eq_left hj]

theorem take_succ_reverse (s : GoString) {i : Nat} (hi : i < s.length) :
    (s.take (i + 1)).reverse = byteAt s i :: (s.take i).reverse := by
  rw [List.take_succ]
  simp [byteAt, List.getD_eq_getElem?_getD, List.getElem?_eq_getElem hi]

theorem cellSpec_succ (a b : GoString) {i j : Nat} (hi : i < a.length) (hj : j < b.length) :
    cellSpec a b (i + 1) (j + 1) =
      min (cellSpec a b i (j + 1) + 1) (cellSpec a b (i + 1) j + 1)
        (cellSpec a b i j + if byteAt a i ≠ byteAt b j then 1 else 0) := by
  rw [min_eq_min]
  unfold cellSpec
  rw [take_succ_reverse a hi, take_succ_reverse b hj, levRec_cons_cons]
  by_cases e : byteAt a i = byteAt b j
  · simp only [e, if_true, ne_eq, not_true_eq_false, if_false]
    push_cast
    omega
  · simp only [e, if_false, ne_eq, not_false_eq_true, if_true]
    push_cast
    omega

/-- After the two base-case loops the table has its shape, column 0 holds the row index
and row 0 the column index. -/
theorem init_spec (m n : Nat) :
    Table.Shape m n (initRow n (initCol m (makeTable m n))) ∧
    (∀ i, i ≤ m → Table.get (initRow n (initCol m (makeTable m n))) i 0 = (i : Int)) ∧
    (∀ j, j ≤ n → Table.get (initRow n (initCol m (makeTable m n))) 0 j = (j : Int)) := by
  have hcol : Table.Shape m n (initCol m (makeTable m n)) ∧
      ∀ i, i < m + 1 → Table.get (initCol m (makeTable m n)) i 0 = (i : Int) := by
    unfold initCol
    refine foldl_range_inv (fun dp i => Table.set dp i 0 (i : Int))
      (fun dp k => Table.Shape m n dp ∧ ∀ i, i < k → Table.get dp i 0 = (i : Int))
      (m + 1) _ ⟨Table.shape_make m n, fun i hi => absurd hi (Nat.not_lt_zero i)⟩ ?_
    rintro y k hk ⟨hs, hv⟩
    refine ⟨Table.shape_set hs _ _ _, fun i hi => ?_⟩
    rw [Table.get_set hs (Nat.le_of_lt_succ hk) (Nat.zero_le n)]
    by_cases e : i = k
    · simp [e]
    · simp only [e, false_and, if_false]
      exact hv i (by omega)
  have hrow : Table.Shape m n (initRow n (initCol m (makeTable m n))) ∧
      (∀ i, i ≤ m → Table.get (initRow n (initCol m (makeTable m n))) i 0 = (i : Int)) ∧
      ∀ j, j < n + 1 → Table.get (initRow n (initCol m (makeTable m n))) 0 j = (j : Int) := by
    unfold initRow
    refine foldl_range_inv (fun dp j => Table.set dp 0 j (j : Int))
      (fun dp k => Table.Shape m n dp ∧ (∀ i, i ≤ m → Table.get dp i 0 = (i : Int)) ∧
        ∀ j, j < k → Table.get dp 0 j = (j : Int))
      (n + 1) _ ⟨hcol.1, fun i hi => hcol.2 i (Nat.lt_succ_of_le hi),
        fun j hj => absurd hj (Nat.not_lt_zero j)⟩ ?_
    rintro y k hk ⟨hs, hc, hv⟩
    refine ⟨Table.shape_set hs _ _ _, fun i hi => ?_, fun j hj => ?_⟩
    · rw [Table.get_set hs (Nat.zero_le m) (Nat.le_of_lt_succ hk)]
      by_cases e : i = 0 ∧ 0 = k
      · obtain ⟨e1, e2⟩ := e
        subst e1; subst e2; simp
      · simp only [e, if_false]
        exact hc i hi
    · rw [Table.get_set hs (Nat.zero_le m) (Nat.le_of_lt_succ hk)]
      by_cases e : j = k
      · simp [e]
      · simp only [e, and_false, if_false]
        exact hv j (by omega)
  exact ⟨hrow.1, hrow.2.1, fun j hj => hrow.2.2 j (Nat.lt_succ_of_le hj)⟩

theorem fillRow_spec (a b : GoString) (dp : Table) (i : Nat) (hi : i < a.length)
    (h : RowsDone a b dp i) : RowsDone a b (fillRow a b b.length dp (i + 1)) (i + 1) := by
  have hq : Table.Shape a.length b.length (fillRow a b b.length dp (i + 1)) ∧
      (∀ i', i' ≤ a.length → Table.get (fillRow a b b.length dp (i + 1)) i' 0 = cellSpec a b i' 0) ∧
      (∀ i' j', i' ≤ i → j' ≤ b.length →
        Table.get (fillRow a b b.length dp (i + 1)) i' j' = cellSpec a b i' j') ∧
      (∀ j', j' ≤ b.length →
        Table.get (fillRow a b b.length dp (i + 1)) (i + 1) j' = cellSpec a b (i + 1) j') := by
    unfold fillRow
    refine foldl_range'_inv (fillCell a b (i + 1))
      (fun dp k => Table.Shape a.length b.length dp ∧
        (∀ i', i' ≤ a.length → Table.get dp i' 0 = cellSpec a b i' 0) ∧
        (∀ i' j', i' ≤ i → j' ≤ b.length → Table.get dp i' j' = cellSpec a b i' j') ∧
        (∀ j', j' ≤ k → Table.get dp (i + 1) j' = cellSpec a b (i + 1) j'))
      b.length dp ⟨h.1, h.2.1, h.2.2, ?_⟩ ?_
    · intro j' hj'
      have : j' = 0 := by omega
      subst this
      exact h.2.1 (i + 1) hi
    · rintro y k hk ⟨hs, hc, hr, hv⟩
      have hset := Table.get_set hs (Nat.succ_le_of_lt hi) (Nat.succ_le_of_lt hk)
      refine ⟨Table.shape_set hs _ _ _, fun i' hi' => ?_, fun i' j' hi' hj' => ?_,
        fun j' hj' => ?_⟩
      · unfold fillCell
        rw [hset]
        have : ¬ (i' = i + 1 ∧ 0 = k + 1) := by omega
        simp only [this, if_false]
        exact hc i' hi'
      · unfold fillCell
        rw [hset]
        have : ¬ (i' = i + 1 ∧ j' = k + 1) := by omega
        simp only [this, if_false]
        exact hr i' j' hi' hj'
      · unfold fillCell
        rw [hset]
        by_cases e : j' = k + 1
        · subst e
          simp only [true_and, if_true, Nat.add_sub_cancel]
          rw [hr i (k + 1) (Nat.le_refl i) (Nat.succ_le_of_lt hk), hv k (Nat.le_refl k),
            hr i k (Nat.le_refl i) (Nat.le_of_lt hk), cellSpec_succ a b hi hk]
        · simp only [e, and_false, if_false]
          exact hv j' (by omega)
  refine ⟨hq.1, hq.2.1, fun i' j' hi' hj' => ?_⟩
  by_cases e : i' = i + 1
  · subst e; exact hq.2.2.2 j' hj'
  · exact hq.2.2.1 i' j' (by omega) hj'

theorem fillTable_spec (a b : GoString) :
    RowsDone a b
      (fillTable a b a.length b.length
        (initRow b.length (initCol a.length (makeTable a.length b.length)))) a.length := by
  obtain ⟨hs, hc, hr⟩ := init_spec a.length b.length
  unfold fillTable
  refine foldl_range'_inv (fillRow a b b.length) (fun dp k => RowsDone a b dp k) a.length _
    ⟨hs, fun i hi => ?_, fun i' j' hi' hj' => ?_⟩ ?_
  · rw [hc i hi, cellSpec_zero_right a b hi]
  · have : i' = 0 := by omega
    subst this
    rw [hr j' hj', cellSpec_zero_left a b hj']
  · intro y k hk hy
    exact fillRow_spec a b y k hk hy

/-- The table computes the reference distance. -/
theorem Levenshtein_eq_levRec (a b : GoString) : Levenshtein a b = (levRec a b : Nat) := by
  unfold Levenshtein
  by_cases hm : a.length = 0
  · have : a = [] := List.length_eq_zero.1 hm
    subst this
    simp [levRec_nil_left]
  · by_cases hn : b.length = 0
    · have : b = [] := List.length_eq_zero.1 hn
      subst this
      have hm' : a ≠ [] := fun e => hm (by simp [e])
      simp [levRec_nil_right, hm']
    · simp only [hm, hn, if_false]
      rw [(fillTable_spec a b).2.2 a.length b.length (Nat.le_refl _) (Nat.le_refl _)]
      simp [cellSpec, levRec_reverse]

/-- C3: `Levenshtein(a, b)`, on the byte sequences the code indexes and compares, is the
Levenshtein distance: it is the value of the standard recurrence, some chain of that many
single-element insertions, deletions and substitutions turns `a` into `b`, and no chain
is shorter.  `Levenshtein("kitten", "sitting") = 3`. -/
theorem levenshtein_is_edit_distance (a b : GoString) :
    Levenshtein a b = (levRec a b : Nat) ∧
    (∃ n : Nat, Levenshtein a b = (n : Int) ∧ EditChain a b n ∧
      ∀ k, EditChain a b k → n ≤ k) ∧
    Levenshtein (str "kitten") (str "sitting") = 3 := by
  refine ⟨Levenshtein_eq_levRec a b, ⟨levRec a b, Levenshtein_eq_levRec a b,
    editChain_levRec a b, fun k hk => levRec_le_of_editChain hk⟩, by decide⟩

/-- C9 fails on the code: `Levenshtein` counts and compares bytes, not code points.  The
strings `"é"` and `"e"` are one code point each and differ by one substitution, so
their code-point distance is 1, while `Levenshtein("é", "e")` is 2 because `"é"` is two
bytes long. -/
theorem levenshtein_counts_bytes :
    runes (str "é") = [0xE9] ∧ runes (str "e") = [0x65] ∧
    runeDistance (str "é") (str "e") = 1 ∧
    Levenshtein (str "é") (str "e") = 2 := by
  refine ⟨by decide, by decide, ?_, by decide⟩
  have h1 : runes (str "é") = [0xE9] := by decide
  have h2 : runes (str "e") = [0x65] := by decide
  simp [runeDistance, h1, h2, levRec]

/-- C10: `Levenshtein(a, b)` is zero exactly when `a` and `b` are the same string; in
particular `Levenshtein(a, a) = 0`. -/
theorem levenshtein_eq_zero_iff (a b : GoString) :
    (Levenshtein a b = 0 ↔ a = b) ∧ Levenshtein a a = 0 := by
  constructor
  · rw [Levenshtein_eq_levRec]
    constructor
    · intro h
      exact (levRec_eq_zero_iff a b).1 (by exact_mod_cast h)
    · intro h
      have := (levRec_eq_zero_iff a b).2 h
      exact_mod_cast this
  · rw [Levenshtein_eq_levRec, levRec_self]
    rfl

/-! ### Suggestions -/

theorem collect_eq_filter (word : GoString) (dictionary : List GoString) (maxDistance : Int) :
    collect word dictionary maxDistance =
      dictionary.filter (fun w => decide (Levenshtein word w ≤ maxDistance)) := by
  have h : ∀ (l acc : List GoString),
      l.foldl (fun suggestions dictWord =>
          if Levenshtein word dictWord ≤ maxDistance then suggestions ++ [dictWord]
          else suggestions) acc =
        acc ++ l.filter (fun w => decide (Levenshtein word w ≤ maxDistance)) := by
    intro l
    induction l with
    | nil => intro acc; simp
    | cons w l ih =>
      intro acc
      simp only [List.foldl_cons, ih, List.filter_cons]
      by_cases hw : Levenshtein word w ≤ maxDistance <;> simp [hw]
  simpa [collect] using h dictionary []

theorem lessByDistance_eq (word : GoString) :
    lessByDistance word = fun x y => decide (Levenshtein word x < Levenshtein word y) := rfl

theorem stableSort_sortsByKey : SortsByKey stableSort := by
  intro key xs
  constructor
  · exact List.perm_insertionSort _ xs
  · have hT : IsTotal GoString (fun x y => decide (key y < key x) = false) :=
      ⟨fun x y => by simp only [decide_eq_false_iff_not]; omega⟩
    have hR : IsTrans GoString (fun x y => decide (key y < key x) = false) :=
      ⟨fun x y z => by simp only [decide_eq_false_iff_not]; omega⟩
    have h := List.sorted_insertionSort (fun x y => decide (key y < key x) = false) xs
    refine List.Pairwise.imp ?_ h
    intro x y hxy
    simp only [decide_eq_false_iff_not] at hxy
    omega

theorem reversingSort_sortsByKey : SortsByKey reversingSort := by
  intro key xs
  obtain ⟨h1, h2⟩ := stableSort_sortsByKey key xs.reverse
  exact ⟨h1.trans (List.reverse_perm xs), h2⟩

/-- The value returned by `SuggestWords` for a non-negative cap. -/
theorem suggestWords_eq (sortSlice : Sorter) (word : GoString) (dictionary : List GoString)
    (maxDistance maxSuggestions : Int) (hk : 0 ≤ maxSuggestions) :
    SuggestWords sortSlice word dictionary maxDistance maxSuggestions =
      some ((sortSlice (lessByDistance word)
        (dictionary.filter (fun w => decide (Levenshtein word w ≤ maxDistance)))).take
          maxSuggestions.toNat) := by
  unfold SuggestWords
  rw [collect_eq_filter]
  simp only []
  split
  · rw [if_neg (by omega)]
  · rename_i h
    rw [List.take_of_length_le (by omega)]

/-- C4: for a non-negative cap `SuggestWords` returns a list, and every word of it is a
vocabulary word whose distance to the query is at most `maxDistance`. -/
theorem suggestWords_within_distance (sortSlice : Sorter) (hs : SortsByKey sortSlice)
    (word : GoString) (dictionary : List GoString) (maxDistance maxSuggestions : Int)
    (hk : 0 ≤ maxSuggestions) :
    ∃ r, SuggestWords sortSlice word dictionary maxDistance maxSuggestions = some r ∧
      ∀ w ∈ r, w ∈ dictionary ∧ Levenshtein word w ≤ maxDistance := by
  refine ⟨_, suggestWords_eq sortSlice word dictionary maxDistance maxSuggestions hk, ?_⟩
  intro w hw
  have hp := (hs (Levenshtein word)
    (dictionary.filter (fun w => decide (Levenshtein word w ≤ maxDistance)))).1
  have hw' := hp.subset (List.mem_of_mem_take hw)
  simpa using hw'

theorem suggestWords_within_distance_witness :
    ∃ r, SuggestWords stableSort (str "helo") [str "hello", str "help", str "world"] 2 3
        = some r ∧
      ∀ w ∈ r, w ∈ [str "hello", str "help", str "world"] ∧
        Levenshtein (str "helo") w ≤ 2 :=
  suggestWords_within_distance stableSort stableSort_sortsByKey (str "helo")
    [str "hello", str "help", str "world"] 2 3 (by decide)

theorem eq_pair_of_perm_of_sorted {key : GoString → Int} {l : List GoString} {x y : GoString}
    (hp : l.Perm [x, y]) (hs : l.Pairwise (fun u v => key u ≤ key v)) (hxy : key x < key y) :
    l = [x, y] := by
  have hlen := hp.length_eq
  match l, hlen with
  | [p, q], _ =>
    have hpm : p ∈ [x, y] := hp.subset (by simp)
    have hqm : q ∈ [x, y] := hp.subset (by simp)
    have hxm : x ∈ [p, q] := hp.symm.subset (by simp)
    have hym : y ∈ [p, q] := hp.symm.subset (by simp)
    have hle : key p ≤ key q := by
      have := List.pairwise_cons.1 hs
      exact this.1 q (by simp)
    simp only [List.mem_cons, List.mem_singleton, List.not_mem_nil, or_false] at hpm hqm hxm hym
    rcases hpm with rfl | rfl <;> rcases hqm with rfl | rfl
    · rcases hym with h | h <;> (rw [h] at hxy; omega)
    · rfl
    · omega
    · rcases hxm with h | h <;> (rw [h] at hxy; omega)

theorem getD_le_of_pairwise {key : GoString → Int} {r : List GoString}
    (h : r.Pairwise (fun x y => key x ≤ key y)) (i j : Nat) (hij : i < j)
    (hj : j < r.length) : key (r.getD i []) ≤ key (r.getD j []) := by
  have hi : i < r.length := Nat.lt_trans hij hj
  rw [List.getD_eq_getElem _ _ hi, List.getD_eq_getElem _ _ hj]
  exact List.pairwise_iff_getElem.1 h i j hi hj hij

/-- C5: for a non-negative cap the list returned by `SuggestWords` is in non-decreasing
order of distance to the query: the word at a position `i` is never farther than the word
at a later position `j`.  In the example of the specification the result is
`["ab", "ac"]`. -/
theorem suggestWords_sorted (sortSlice : Sorter) (hs : SortsByKey sortSlice)
    (word : GoString) (dictionary : List GoString) (maxDistance maxSuggestions : Int)
    (hk : 0 ≤ maxSuggestions) :
    (∃ r, SuggestWords sortSlice word dictionary maxDistance maxSuggestions = some r ∧
      ∀ i j, i < j → j < r.length →
        Levenshtein word (r.getD i []) ≤ Levenshtein word (r.getD j [])) ∧
    SuggestWords sortSlice (str "ab") [str "ab", str "ac", str "xyz"] 1 10
      = some [str "ab", str "ac"] := by
  constructor
  · refine ⟨_, suggestWords_eq sortSlice word dictionary maxDistance maxSuggestions hk, ?_⟩
    have hsorted : (sortSlice (lessByDistance word)
        (dictionary.filter (fun w => decide (Levenshtein word w ≤ maxDistance)))).Pairwise
          (fun x y => Levenshtein word x ≤ Levenshtein word y) :=
      (hs (Levenshtein word)
        (dictionary.filter (fun w => decide (Levenshtein word w ≤ maxDistance)))).2
    have htake := hsorted.sublist (List.take_sublist maxSuggestions.toNat _)
    intro i j hij hj
    exact getD_le_of_pairwise htake i j hij hj
  · rw [suggestWords_eq sortSlice _ _ _ _ (by decide)]
    have hf : ([str "ab", str "ac", str "xyz"].filter
        (fun w => decide (Levenshtein (str "ab") w ≤ 1))) = [str "ab", str "ac"] := by decide
    rw [hf]
    obtain ⟨h1, h2⟩ := hs (Levenshtein (str "ab")) [str "ab", str "ac"]
    have := eq_pair_of_perm_of_sorted h1 h2 (by decide)
    rw [lessByDistance_eq, this]
    rfl

theorem suggestWords_sorted_witness :
    (∃ r, SuggestWords stableSort (str "helo") [str "help", str "hello", str "world"] 2 3
        = some r ∧
      ∀ i j, i < j → j < r.length →
        Levenshtein (str "helo") (r.getD i []) ≤ Levenshtein (str "helo") (r.getD j [])) ∧
    SuggestWords stableSort (str "ab") [str "ab", str "ac", str "xyz"] 1 10
      = some [str "ab", str "ac"] :=
  suggestWords_sorted stableSort stableSort_sortsByKey (str "helo")
    [str "help", str "hello", str "world"] 2 3 (by decide)

/-- C7: for a non-negative cap `SuggestWords` returns a list of at most `maxSuggestions`
words, whatever the sorting routine does. -/
theorem suggestWords_length_le (sortSlice : Sorter) (word : GoString)
    (dictionary : List GoString) (maxDistance maxSuggestions : Int) (hk : 0 ≤ maxSuggestions) :
    ∃ r, SuggestWords sortSlice word dictionary maxDistance maxSuggestions = some r ∧
      (r.length : Int) ≤ maxSuggestions := by
  refine ⟨_, suggestWords_eq sortSlice word dictionary maxDistance maxSuggestions hk, ?_⟩
  rw [List.length_take]
  omega

theorem suggestWords_length_le_witness :
    ∃ r, SuggestWords stableSort (str "helo") [str "hello", str "help", str "held"] 2 2
        = some r ∧ (r.length : Int) ≤ 2 :=
  suggestWords_length_le stableSort (str "helo") [str "hello", str "help", str "held"] 2 2
    (by decide)

/-! ### The best suggestion -/

/-- The loop of `BestSuggestion` keeps `bestDistance` equal to the distance of `best`,
and ends on the earliest minimum: either the initial candidate survives and nothing in
the list is closer, or the result splits the list with strictly farther words before it. -/
theorem bestStep_foldl (word : GoString) (l : List GoString) :
    ∀ (b : GoString),
      ((l.foldl (bestStep word) (b, Levenshtein word b)).1 = b ∧
          ∀ x ∈ l, Levenshtein word b ≤ Levenshtein word x) ∨
      (∃ pre post, l = pre ++ (l.foldl (bestStep word) (b, Levenshtein word b)).1 :: post ∧
        Levenshtein word (l.foldl (bestStep word) (b, Levenshtein word b)).1
          < Levenshtein word b ∧
        (∀ x ∈ pre, Levenshtein word (l.foldl (bestStep word) (b, Levenshtein word b)).1
          < Levenshtein word x) ∧
        (∀ x ∈ post, Levenshtein word (l.foldl (bestStep word) (b, Levenshtein word b)).1
          ≤ Levenshtein word x)) := by
  induction l with
  | nil => intro b; left; simp
  | cons s l ih =>
    intro b
    simp only [List.foldl_cons]
    by_cases hlt : Levenshtein word s < Levenshtein word b
    · have hstep : bestStep word (b, Levenshtein word b) s = (s, Levenshtein word s) := by
        simp [bestStep, hlt]
      rw [hstep]
      rcases ih s with ⟨h1, h2⟩ | ⟨pre, post, h1, h2, h3, h4⟩
      · right
        refine ⟨[], l, ?_, ?_, ?_, ?_⟩
        · rw [h1]; rfl
        · rw [h1]; exact hlt
        · intro x hx; cases hx
        · intro x hx; rw [h1]; exact h2 x hx
      · right
        refine ⟨s :: pre, post, ?_, ?_, ?_, h4⟩
        · simpa using h1
        · omega
        · intro x hx
          rcases List.mem_cons.1 hx with rfl | hx
          · exact h2
          · exact h3 x hx
    · have hstep : bestStep word (b, Levenshtein word b) s = (b, Levenshtein word b) := by
        simp [bestStep, hlt]
      rw [hstep]
      rcases ih b with ⟨h1, h2⟩ | ⟨pre, post, h1, h2, h3, h4⟩
      · left
        refine ⟨h1, ?_⟩
        intro x hx
        rcases List.mem_cons.1 hx with rfl | hx
        · omega
        · exact h2 x hx
      · right
        refine ⟨s :: pre, post, ?_, h2, ?_, h4⟩
        · simpa using h1
        · intro x hx
          rcases List.mem_cons.1 hx with rfl | hx
          · omega
          · exact h3 x hx

/-- C8: `BestSuggestion` returns the empty string for no suggestions; for a non-empty
list it returns the earliest element of minimal distance to the word: every element
before it is strictly farther and every element after it is at least as far.  In the
example of the specification it returns `"cap"`. -/
theorem bestSuggestion_spec (word : GoString) (suggestions : List GoString) :
    BestSuggestion word [] = [] ∧
    (suggestions ≠ [] →
      ∃ pre post, suggestions = pre ++ BestSuggestion word suggestions :: post ∧
        (∀ x ∈ pre, Levenshtein word (BestSuggestion word suggestions) < Levenshtein word x) ∧
        (∀ x ∈ post, Levenshtein word (BestSuggestion word suggestions) ≤ Levenshtein word x)) ∧
    BestSuggestion (str "cat") [str "cap", str "bat"] = str "cap" := by
  refine ⟨rfl, ?_, by decide⟩
  intro hne
  cases suggestions with
  | nil => exact absurd rfl hne
  | cons s0 tl =>
    show ∃ pre post, s0 :: tl
        = pre ++ ((s0 :: tl).foldl (bestStep word) (s0, Levenshtein word s0)).1 :: post ∧ _
    rcases bestStep_foldl word (s0 :: tl) s0 with ⟨h1, h2⟩ | ⟨pre, post, h1, h2, h3, h4⟩
    · refine ⟨[], tl, ?_, ?_, ?_⟩
      · show s0 :: tl = [] ++ _ :: tl
        rw [h1]; rfl
      · intro x hx; cases hx
      · intro x hx
        show Levenshtein word ((s0 :: tl).foldl (bestStep word) (s0, Levenshtein word s0)).1 ≤ _
        rw [h1]
        exact h2 x (List.mem_cons_of_mem _ hx)
    · exact ⟨pre, post, h1, h3, h4⟩

theorem bestSuggestion_spec_witness :
    ∃ pre post, [str "cap", str "bat", str "cat"]
        = pre ++ BestSuggestion (str "cat") [str "cap", str "bat", str "cat"] :: post ∧
      (∀ x ∈ pre, Levenshtein (str "cat")
          (BestSuggestion (str "cat") [str "cap", str "bat", str "cat"])
        < Levenshtein (str "cat") x) ∧
      (∀ x ∈ post, Levenshtein (str "cat")
          (BestSuggestion (str "cat") [str "cap", str "bat", str "cat"])
        ≤ Levenshtein (str "cat") x) :=
  (bestSuggestion_spec (str "cat") [str "cap", str "bat", str "cat"]).2.1 (by decide)

/-! ### Insertion sort, the routine behind `sort.Slice` on short slices -/

theorem elemAt_append_right (l1 l2 : List GoString) (i : Nat) :
    elemAt (l1 ++ l2) (l1.length + i) = elemAt l2 i := by
  simp [elemAt, List.getD_eq_getElem?_getD, List.getElem?_append_right]

theorem swapAt_adjacent (l1 l2 : List GoString) (y x : GoString) :
    swapAt (l1 ++ y :: x :: l2) (l1.length + 1) (l1.length + 1 - 1) = l1 ++ x :: y :: l2 := by
  have e1 : elemAt (l1 ++ y :: x :: l2) (l1.length + 1) = x := by
    rw [elemAt_append_right]; rfl
  have e0 : elemAt (l1 ++ y :: x :: l2) (l1.length + 0) = y := by
    rw [elemAt_append_right]; rfl
  simp only [Nat.add_sub_cancel, swapAt]
  rw [Nat.add_zero] at e0
  rw [e1, e0]
  have s1 : (l1 ++ y :: x :: l2).set (l1.length + 1) y = l1 ++ y :: y :: l2 := by
    rw [List.set_append_right _ _ (Nat.le_add_right _ _)]
    simp
  rw [s1]
  have s2 : (l1 ++ y :: y :: l2).set l1.length x = l1 ++ x :: y :: l2 := by
    rw [List.set_append_right _ _ (Nat.le_refl _)]
    simp
  exact s2

theorem insertBack_length (less : GoString → GoString → Bool) (x : GoString)
    (rp : List GoString) : (insertBack less x rp).length = rp.length + 1 := by
  induction rp with
  | nil => rfl
  | cons y rp ih =>
    unfold insertBack
    split <;> simp [ih]

/-- The inner loop moves the element at position `j` into the sorted run before it. -/
theorem insertionInner_eq (less : GoString → GoString → Bool) (x : GoString)
    (rp : List GoString) :
    ∀ post : List GoString,
      insertionInner less 0 rp.length rp.length (rp.reverse ++ x :: post) =
        (insertBack less x rp).reverse ++ post := by
  induction rp with
  | nil => intro post; simp [insertionInner, insertBack]
  | cons y rp ih =>
    intro post
    have hlen : (y :: rp).length = rp.reverse.length + 1 := by simp
    have hd : (y :: rp).reverse ++ x :: post = rp.reverse ++ y :: x :: post := by simp
    have hless : lessAt less (rp.reverse ++ y :: x :: post) (rp.reverse.length + 1)
        (rp.reverse.length + 1 - 1) = less x y := by
      unfold lessAt
      have e1 : elemAt (rp.reverse ++ y :: x :: post) (rp.reverse.length + 1) = x := by
        rw [elemAt_append_right]; rfl
      have e0 : elemAt (rp.reverse ++ y :: x :: post) (rp.reverse.length + 0) = y := by
        rw [elemAt_append_right]; rfl
      rw [Nat.add_sub_cancel, e1]
      rw [Nat.add_zero] at e0
      rw [e0]
    rw [hd, hlen]
    unfold insertionInner
    rw [hless]
    by_cases h : less x y = true
    · rw [if_pos ⟨Nat.succ_pos _, h⟩, swapAt_adjacent]
      have := ih (y :: post)
      simp only [List.length_reverse, Nat.add_sub_cancel] at this ⊢
      rw [this]
      simp [insertBack, h]
    · rw [if_neg (fun hh => h hh.2)]
      simp [insertBack, h]

theorem sortedRun_length (less : GoString → GoString → Bool) (xs : List GoString) :
    (sortedRun less xs).length = xs.length := by
  have h : ∀ (l acc : List GoString),
      (l.foldl (fun rp x => insertBack less x rp) acc).length = acc.length + l.length := by
    intro l
    induction l with
    | nil => intro acc; rfl
    | cons x l ih =>
      intro acc
      simp only [List.foldl_cons, ih, insertBack_length, List.length_cons]
      omega
  simpa [sortedRun] using h xs []

theorem sortedRun_concat (less : GoString → GoString → Bool) (l : List GoString)
    (x : GoString) : sortedRun less (l ++ [x]) = insertBack less x (sortedRun less l) := by
  simp [sortedRun, List.foldl_append]

/-- The function `insertionSort_func` on a whole slice builds the sorted run element by element. -/
theorem insertionSort_func_eq (less : GoString → GoString → Bool) (d : List GoString) :
    insertionSort_func less d 0 d.length = (sortedRun less d).reverse := by
  cases d with
  | nil => rfl
  | cons x0 tl =>
    have key := foldl_range'_inv (fun d i => insertionInner less 0 i i d)
      (fun dcur k => dcur = (sortedRun less ((x0 :: tl).take (k + 1))).reverse
          ++ (x0 :: tl).drop (k + 1))
      tl.length (x0 :: tl) (by simp [sortedRun, insertBack]) ?_
    · have e : (x0 :: tl).length - (0 + 1) = tl.length := by simp
      unfold insertionSort_func
      rw [e, Nat.zero_add, key]
      simp
    · intro y k hk hy
      have hk' : k + 1 < (x0 :: tl).length := by simp; omega
      have hdrop : (x0 :: tl).drop (k + 1)
          = (x0 :: tl)[k + 1] :: (x0 :: tl).drop (k + 1 + 1) := by
        rw [List.drop_eq_getElem_cons hk']
      have htake : (x0 :: tl).take (k + 1 + 1)
          = (x0 :: tl).take (k + 1) ++ [(x0 :: tl)[k + 1]] := by
        rw [List.take_succ, List.getElem?_eq_getElem hk']
        rfl
      have hlen : (sortedRun less ((x0 :: tl).take (k + 1))).length = k + 1 := by
        rw [sortedRun_length, List.length_take]
        omega
      show insertionInner less 0 (k + 1) (k + 1) y = _
      rw [hy, hdrop]
      have := insertionInner_eq less (x0 :: tl)[k + 1]
        (sortedRun less ((x0 :: tl).take (k + 1))) ((x0 :: tl).drop (k + 1 + 1))
      rw [hlen] at this
      rw [this, htake, sortedRun_concat]

theorem insertBack_perm (less : GoString → GoString → Bool) (x : GoString)
    (rp : List GoString) : (insertBack less x rp).Perm (x :: rp) := by
  induction rp with
  | nil => exact List.Perm.refl _
  | cons y rp ih =>
    unfold insertBack
    split
    · exact ((List.Perm.cons y ih).trans (List.Perm.swap x y rp))
    · exact List.Perm.refl _

theorem sortedRun_perm (less : GoString → GoString → Bool) (xs : List GoString) :
    (sortedRun less xs).reverse.Perm xs := by
  have h : ∀ (l acc : List GoString),
      (l.foldl (fun rp x => insertBack less x rp) acc).Perm (l ++ acc) := by
    intro l
    induction l with
    | nil => intro acc; exact List.Perm.refl _
    | cons x l ih =>
      intro acc
      simp only [List.foldl_cons]
      refine (ih _).trans ?_
      refine (List.Perm.append_left l (insertBack_perm less x acc)).trans ?_
      simp
  have := h xs []
  simp only [List.append_nil] at this
  exact (List.reverse_perm _).trans this

theorem insertBack_sorted (key : GoString → Int) (x : GoString) (rp : List GoString)
    (h : rp.Pairwise (fun u v => key v ≤ key u)) :
    (insertBack (fun x y => decide (key x < key y)) x rp).Pairwise
      (fun u v => key v ≤ key u) := by
  induction rp with
  | nil => simp [insertBack]
  | cons y rp ih =>
    have hy := List.pairwise_cons.1 h
    unfold insertBack
    by_cases hxy : key x < key y
    · simp only [hxy, decide_True, if_true]
      refine List.pairwise_cons.2 ⟨?_, ih hy.2⟩
      intro z hz
      rcases List.mem_cons.1 ((insertBack_perm _ x rp).subset hz) with rfl | hz'
      · omega
      · exact hy.1 z hz'
    · simp only [hxy, decide_False, Bool.false_eq_true, if_false]
      refine List.pairwise_cons.2 ⟨?_, h⟩
      intro z hz
      rcases List.mem_cons.1 hz with rfl | hz'
      · omega
      · have := hy.1 z hz'
        omega

theorem sortedRun_sorted (key : GoString → Int) (xs : List GoString) :
    (sortedRun (fun x y => decide (key x < key y)) xs).reverse.Pairwise
      (fun u v => key u ≤ key v) := by
  have h : ∀ (l acc : List GoString), acc.Pairwise (fun u v => key v ≤ key u) →
      (l.foldl (fun rp x => insertBack (fun x y => decide (key x < key y)) x rp) acc).Pairwise
        (fun u v => key v ≤ key u) := by
    intro l
    induction l with
    | nil => intro acc hacc; exact hacc
    | cons x l ih =>
      intro acc hacc
      exact ih _ (insertBack_sorted key x acc hacc)
  rw [List.pairwise_reverse]
  exact h xs [] List.Pairwise.nil

theorem insertBack_filter (key : GoString → Int) (c : Int) (x : GoString)
    (rp : List GoString) :
    (insertBack (fun x y => decide (key x < key y)) x rp).filter (fun w => decide (key w = c))
      = (x :: rp).filter (fun w => decide (key w = c)) := by
  induction rp with
  | nil => rfl
  | cons y rp ih =>
    unfold insertBack
    by_cases hxy : key x < key y
    · simp only [hxy, decide_True, if_true]
      rw [List.filter_cons, ih]
      by_cases hx : key x = c
      · have hy : ¬ key y = c := by omega
        simp [List.filter_cons, hx, hy]
      · simp [List.filter_cons, hx]
    · simp only [hxy, decide_False, Bool.false_eq_true, if_false]

/-- Insertion sort is stable: the elements of any given key keep their order. -/
theorem sortedRun_filter (key : GoString → Int) (c : Int) (xs : List GoString) :
    (sortedRun (fun x y => decide (key x < key y)) xs).reverse.filter
        (fun w => decide (key w = c))
      = xs.filter (fun w => decide (key w = c)) := by
  have h : ∀ (l acc : List GoString),
      (l.foldl (fun rp x => insertBack (fun x y => decide (key x < key y)) x rp) acc).filter
          (fun w => decide (key w = c))
        = (l.filter (fun w => decide (key w = c))).reverse
            ++ acc.filter (fun w => decide (key w = c)) := by
    intro l
    induction l with
    | nil => intro acc; simp
    | cons x l ih =>
      intro acc
      simp only [List.foldl_cons]
      rw [ih, insertBack_filter]
      by_cases hx : key x = c <;> simp [List.filter_cons, hx]
  have := h xs []
  simp only [List.filter_nil, List.append_nil] at this
  rw [List.filter_reverse, show sortedRun (fun x y => decide (key x < key y)) xs
      = xs.foldl (fun rp x => insertBack (fun x y => decide (key x < key y)) x rp) [] from rfl,
    this, List.reverse_reverse]

/-- On a slice of at most 12 elements `sort.Slice` is the insertion sort. -/
theorem sortSlice_short (less : GoString → GoString → Bool) (xs : List GoString)
    (h : xs.length ≤ 12) : sortSlice less xs = (sortedRun less xs).reverse := by
  unfold sortSlice
  have e : 2 * xs.length + 2 = (2 * xs.length + 1) + 1 := rfl
  rw [e]
  unfold pdqsort_func
  simp only [Nat.sub_zero, h, if_true]
  exact insertionSort_func_eq less xs

set_option maxRecDepth 100000 in
/-- C6 as stated fails.  With the thirteen-word vocabulary `b, c, ..., m, a`, the query
`"a"`, `maxDistance = 2` and `maxSuggestions = 10`, all thirteen words pass the filter and
`sort.Slice` leaves the insertion-sort range: the pivot swaps put `"h"` before `"b"` and
send `"c"` to the end, although all three are at distance 1 and `"b"`, `"c"` come first in
the vocabulary.  A stable sort returns `a, b, c, ..., j`.  Already the contract of
`sort.Slice` allows this: a routine that sorts and reverses ties satisfies it. -/
theorem suggestWords_not_stable :
    SuggestWords sortSlice (str "a") thirteenWords 2 10
      = some [str "a", str "h", str "d", str "e", str "f", str "g", str "b", str "i",
          str "j", str "k"] ∧
    SuggestWords stableSort (str "a") thirteenWords 2 10
      = some [str "a", str "b", str "c", str "d", str "e", str "f", str "g", str "h",
          str "i", str "j"] ∧
    Levenshtein (str "a") (str "b") = 1 ∧ Levenshtein (str "a") (str "c") = 1 ∧
    Levenshtein (str "a") (str "h") = 1 ∧
    SortsByKey reversingSort ∧
    SuggestWords reversingSort (str "a") [str "b", str "c"] 2 10
      = some [str "c", str "b"] :=
  ⟨rfl, rfl, rfl, rfl, rfl, reversingSort_sortsByKey, rfl⟩

/-- C6, amended: for a non-negative cap, `SuggestWords` returns the first
`maxSuggestions` elements of a rearrangement of the filtered vocabulary that is in
non-decreasing order of distance, whatever sorting routine meets the contract of
`sort.Slice`.  When at most 12 words pass the distance filter, `sort.Slice` is an insertion
sort and the words of any given distance keep their vocabulary order. -/
theorem suggestWords_sorted_take (word : GoString) (dictionary : List GoString)
    (maxDistance maxSuggestions : Int) (hk : 0 ≤ maxSuggestions) :
    (∀ sorter : Sorter, SortsByKey sorter →
      ∃ l : List GoString,
        SuggestWords sorter word dictionary maxDistance maxSuggestions
          = some (l.take maxSuggestions.toNat) ∧
        l.Perm (dictionary.filter (fun w => decide (Levenshtein word w ≤ maxDistance))) ∧
        l.Pairwise (fun x y => Levenshtein word x ≤ Levenshtein word y)) ∧
    ((dictionary.filter (fun w => decide (Levenshtein word w ≤ maxDistance))).length ≤ 12 →
      ∃ l : List GoString,
        SuggestWords sortSlice word dictionary maxDistance maxSuggestions
          = some (l.take maxSuggestions.toNat) ∧
        l.Perm (dictionary.filter (fun w => decide (Levenshtein word w ≤ maxDistance))) ∧
        l.Pairwise (fun x y => Levenshtein word x ≤ Levenshtein word y) ∧
        ∀ c : Int, l.filter (fun w => decide (Levenshtein word w = c))
          = (dictionary.filter (fun w => decide (Levenshtein word w ≤ maxDistance))).filter
              (fun w => decide (Levenshtein word w = c))) := by
  constructor
  · intro sorter hs
    refine ⟨_, suggestWords_eq sorter word dictionary maxDistance maxSuggestions hk, ?_⟩
    exact hs (Levenshtein word) _
  · intro hlen
    refine ⟨_, suggestWords_eq sortSlice word dictionary maxDistance maxSuggestions hk, ?_⟩
    rw [sortSlice_short _ _ hlen, lessByDistance_eq]
    exact ⟨sortedRun_perm _ _, sortedRun_sorted (Levenshtein word) _,
      fun c => sortedRun_filter (Levenshtein word) c _⟩

theorem suggestWords_sorted_take_witness :
      ∃ l : List GoString,
        SuggestWords sortSlice (str "helo") [str "help", str "hello", str "held", str "world"]
            2 3 = some (l.take (3 : Int).toNat) ∧
        l.Perm ([str "help", str "hello", str "held", str "world"].filter
          (fun w => decide (Levenshtein (str "helo") w ≤ 2))) ∧
        l.Pairwise (fun x y => Levenshtein (str "helo") x ≤ Levenshtein (str "helo") y) ∧
        ∀ c : Int, l.filter (fun w => decide (Levenshtein (str "helo") w = c))
          = ([str "help", str "hello", str "held", str "world"].filter
              (fun w => decide (Levenshtein (str "helo") w ≤ 2))).filter
              (fun w => decide (Levenshtein (str "helo") w = c)) :=
  (suggestWords_sorted_take (str "helo") [str "help", str "hello", str "held", str "world"]
    2 3 (by decide)).2 (by decide)

/-! ### Metric properties of `Levenshtein` -/

theorem editChain_symm {α : Type} {a b : List α} {n : Nat} (h : EditChain a b n) :
    EditChain b a n := by
  induction h with
  | refl => exact EditChain.refl _
  | step _ hs ih =>
    exact editChain_cast (editChain_trans (editChain_single (editStep_symm hs)) ih)
      (Nat.add_comm 1 _)

theorem levRec_comm {α : Type} [DecidableEq α] (a b : List α) : levRec a b = levRec b a :=
  Nat.le_antisymm (levRec_le_of_editChain (editChain_symm (editChain_levRec b a)))
    (levRec_le_of_editChain (editChain_symm (editChain_levRec a b)))

theorem levRec_triangle {α : Type} [DecidableEq α] (a b c : List α) :
    levRec a c ≤ levRec a b + levRec b c :=
  levRec_le_of_editChain (editChain_trans (editChain_levRec a b) (editChain_levRec b c))

/-- C11: `Levenshtein` is symmetric, `Levenshtein(a, b) = Levenshtein(b, a)` for all
strings. -/
theorem levenshtein_comm (a b : GoString) : Levenshtein a b = Levenshtein b a := by
  rw [Levenshtein_eq_levRec, Levenshtein_eq_levRec, levRec_comm]

/-- C12: `Levenshtein` satisfies the triangle inequality,
`Levenshtein(a, c) <= Levenshtein(a, b) + Levenshtein(b, c)` for all strings. -/
theorem levenshtein_triangle (a b c : GoString) :
    Levenshtein a c ≤ Levenshtein a b + Levenshtein b c := by
  rw [Levenshtein_eq_levRec, Levenshtein_eq_levRec, Levenshtein_eq_levRec]
  exact_mod_cast levRec_triangle a b c

/-- C19: against the empty string the distance is the length in bytes, the unit the
function compares: `Levenshtein(a, "") = len(a)` and `Levenshtein("", b) = len(b)`;
`Levenshtein("", "abc") = 3`. -/
theorem levenshtein_empty (a b : GoString) :
    Levenshtein a [] = (a.length : Int) ∧ Levenshtein [] b = (b.length : Int) ∧
    Levenshtein (str "") (str "abc") = 3 := by
  refine ⟨?_, ?_, by decide⟩
  · rw [Levenshtein_eq_levRec, levRec_nil_right]
  · rw [Levenshtein_eq_levRec, levRec_nil_left]

/-! ### Completeness of the suggestions and the best pick -/

/-- C13: when the vocabulary entries within `maxDistance` of the query, counted with
multiplicity, number at most `maxSuggestions`, `SuggestWords` returns a permutation of
exactly those entries; with no such entry it returns the empty list. -/
theorem suggestWords_all_of_few (sortSlice : Sorter) (hs : SortsByKey sortSlice)
    (word : GoString) (dictionary : List GoString) (maxDistance maxSuggestions : Int)
    (hfew : ((dictionary.filter
        (fun w => decide (Levenshtein word w ≤ maxDistance))).length : Int) ≤ maxSuggestions) :
    ∃ r, SuggestWords sortSlice word dictionary maxDistance maxSuggestions = some r ∧
      r.Perm (dictionary.filter (fun w => decide (Levenshtein word w ≤ maxDistance))) ∧
      (dictionary.filter (fun w => decide (Levenshtein word w ≤ maxDistance)) = [] →
        r = []) := by
  have hk : 0 ≤ maxSuggestions := by omega
  have hp : (sortSlice (lessByDistance word)
      (dictionary.filter (fun w => decide (Levenshtein word w ≤ maxDistance)))).Perm
      (dictionary.filter (fun w => decide (Levenshtein word w ≤ maxDistance))) :=
    (hs (Levenshtein word) _).1
  have hlen := hp.length_eq
  have htake : (sortSlice (lessByDistance word)
      (dictionary.filter (fun w => decide (Levenshtein word w ≤ maxDistance)))).take
        maxSuggestions.toNat
      = sortSlice (lessByDistance word)
        (dictionary.filter (fun w => decide (Levenshtein word w ≤ maxDistance))) :=
    List.take_of_length_le (by omega)
  refine ⟨_, suggestWords_eq sortSlice word dictionary maxDistance maxSuggestions hk, ?_, ?_⟩
  · rw [htake]; exact hp
  · intro hnil
    rw [htake]
    apply List.length_eq_zero.1
    rw [hlen, hnil]
    rfl

theorem suggestWords_all_of_few_witness :
    ∃ r, SuggestWords stableSort (str "helo") [str "world", str "help", str "hello"] 2 5
        = some r ∧
      r.Perm ([str "world", str "help", str "hello"].filter
        (fun w => decide (Levenshtein (str "helo") w ≤ 2))) ∧
      ([str "world", str "help", str "hello"].filter
        (fun w => decide (Levenshtein (str "helo") w ≤ 2)) = [] → r = []) :=
  suggestWords_all_of_few stableSort stableSort_sortsByKey (str "helo")
    [str "world", str "help", str "hello"] 2 5 (by decide)

/-- The result of `BestSuggestion` on a non-empty list is one of its elements and none is
closer to the word. -/
theorem bestSuggestion_mem_min (word : GoString) (suggestions : List GoString)
    (hne : suggestions ≠ []) :
    BestSuggestion word suggestions ∈ suggestions ∧
      ∀ x ∈ suggestions,
        Levenshtein word (BestSuggestion word suggestions) ≤ Levenshtein word x := by
  cases suggestions with
  | nil => exact absurd rfl hne
  | cons s0 tl =>
    have hB : BestSuggestion word (s0 :: tl)
        = ((s0 :: tl).foldl (bestStep word) (s0, Levenshtein word s0)).1 := rfl
    rcases bestStep_foldl word (s0 :: tl) s0 with ⟨h1, h2⟩ | ⟨pre, post, h1, _, h3, h4⟩
    · rw [hB, h1]
      exact ⟨List.mem_cons_self _ _, h2⟩
    · rw [← hB] at h1 h3 h4
      generalize BestSuggestion word (s0 :: tl) = best at h1 h3 h4 ⊢
      constructor
      · rw [h1]; simp
      · intro x hx
        rw [h1] at hx
        rcases List.mem_append.1 hx with hx | hx
        · exact Int.le_of_lt (h3 x hx)
        · rcases List.mem_cons.1 hx with rfl | hx
          · exact Int.le_refl _
          · exact h4 x hx

/-- C14: for `maxSuggestions >= 1`, when `SuggestWords` returns a non-empty list the best
pick from it is a vocabulary word at the minimum distance over the whole vocabulary, the
same distance as the best pick from the full vocabulary: the cap discards no closer
candidate. -/
theorem bestSuggestion_of_capped_minimal (sortSlice : Sorter) (hs : SortsByKey sortSlice)
    (word : GoString) (dictionary : List GoString) (maxDistance maxSuggestions : Int)
    (hk : 1 ≤ maxSuggestions) :
    ∃ r, SuggestWords sortSlice word dictionary maxDistance maxSuggestions = some r ∧
      (r ≠ [] →
        BestSuggestion word r ∈ dictionary ∧
        (∀ w ∈ dictionary, Levenshtein word (BestSuggestion word r) ≤ Levenshtein word w) ∧
        Levenshtein word (BestSuggestion word r)
          = Levenshtein word (BestSuggestion word dictionary)) := by
  refine ⟨_, suggestWords_eq sortSlice word dictionary maxDistance maxSuggestions
    (by omega), ?_⟩
  obtain ⟨hp, hsorted⟩ := hs (Levenshtein word)
    (dictionary.filter (fun w => decide (Levenshtein word w ≤ maxDistance)))
  rw [lessByDistance_eq]
  generalize sortSlice (fun x y => decide (Levenshtein word x < Levenshtein word y))
    (dictionary.filter (fun w => decide (Levenshtein word w ≤ maxDistance))) = l at hp hsorted
  intro hne
  obtain ⟨hbm, hbmin⟩ := bestSuggestion_mem_min word _ hne
  have hsub : ∀ x ∈ l.take maxSuggestions.toNat,
      x ∈ dictionary ∧ Levenshtein word x ≤ maxDistance := by
    intro x hx
    have := hp.subset (List.mem_of_mem_take hx)
    simpa using this
  cases l with
  | nil => simp at hne
  | cons x tl =>
    have hpos : maxSuggestions.toNat = (maxSuggestions.toNat - 1) + 1 := by omega
    have hhead : x ∈ (x :: tl).take maxSuggestions.toNat := by
      rw [hpos, List.take_succ_cons]
      exact List.mem_cons_self _ _
    have hx := List.pairwise_cons.1 hsorted
    have hmin : ∀ w ∈ dictionary,
        Levenshtein word (BestSuggestion word ((x :: tl).take maxSuggestions.toNat))
          ≤ Levenshtein word w := by
      intro w hw
      have h1 := hbmin x hhead
      by_cases hwd : Levenshtein word w ≤ maxDistance
      · have hwf : w ∈ dictionary.filter
            (fun w => decide (Levenshtein word w ≤ maxDistance)) := by
          simp [hw, hwd]
        rcases List.mem_cons.1 (hp.symm.subset hwf) with rfl | hwl
        · exact h1
        · exact Int.le_trans h1 (hx.1 w hwl)
      · have := (hsub x hhead).2
        omega
    have hbd := (hsub _ hbm).1
    refine ⟨hbd, hmin, ?_⟩
    have hdne : dictionary ≠ [] := fun e => by rw [e] at hbd; cases hbd
    obtain ⟨hdm, hdmin⟩ := bestSuggestion_mem_min word dictionary hdne
    exact Int.le_antisymm (hmin _ hdm) (hdmin _ hbd)

theorem bestSuggestion_of_capped_minimal_witness :
    ∃ r, SuggestWords stableSort (str "helo") [str "world", str "help", str "hello"] 2 1
        = some r ∧
      (r ≠ [] →
        BestSuggestion (str "helo") r ∈ [str "world", str "help", str "hello"] ∧
        (∀ w ∈ [str "world", str "help", str "hello"],
          Levenshtein (str "helo") (BestSuggestion (str "helo") r)
            ≤ Levenshtein (str "helo") w) ∧
        Levenshtein (str "helo") (BestSuggestion (str "helo") r)
          = Levenshtein (str "helo")
              (BestSuggestion (str "helo") [str "world", str "help", str "hello"])) :=
  bestSuggestion_of_capped_minimal stableSort stableSort_sortsByKey (str "helo")
    [str "world", str "help", str "hello"] 2 1 (by decide)

/-- A negative cap makes the slice expression `suggestions[:maxSuggestions]` run out of
range, whatever the other arguments are. -/
theorem suggestWords_none_of_neg (sortSlice : Sorter) (word : GoString)
    (dictionary : List GoString) (maxDistance maxSuggestions : Int) (hk : maxSuggestions < 0) :
    SuggestWords sortSlice word dictionary maxDistance maxSuggestions = none := by
  unfold SuggestWords
  simp only []
  rw [if_pos (by omega), if_pos hk]

/-- C15 fails on the code: with `maxSuggestions = -1` the length of the suggestions, even
zero, exceeds the cap, the slice expression `suggestions[:-1]` is evaluated and the
program aborts with a slice bound out of range.  For a cap of zero or more, and any
`maxDistance`, a list is returned. -/
theorem suggestWords_aborts_on_negative_cap :
    SuggestWords sortSlice (str "helo") [str "hello", str "help"] 2 (-1) = none ∧
    SuggestWords sortSlice (str "helo") [] 2 (-1) = none ∧
    SuggestWords sortSlice (str "helo") [str "hello", str "help"] 2 0 = some [] ∧
    SuggestWords sortSlice (str "helo") [str "hello", str "help"] (-1) 3 = some [] :=
  ⟨suggestWords_none_of_neg _ _ _ _ _ (by decide),
   suggestWords_none_of_neg _ _ _ _ _ (by decide), by decide, by decide⟩

/-- C16: for the vocabulary `["hello", "help", "held", "world"]`, the query `"helo"`,
`maxDistance = 2` and `maxSuggestions = 3`, `SuggestWords` returns exactly
`["hello", "help", "held"]` and `BestSuggestion` on that list returns `"hello"`. -/
theorem suggestWords_scenario :
    SuggestWords sortSlice (str "helo") [str "hello", str "help", str "held", str "world"] 2 3
      = some [str "hello", str "help", str "held"] ∧
    BestSuggestion (str "helo") [str "hello", str "help", str "held"] = str "hello" := by
  constructor
  · decide
  · decide

/-- C17 as stated fails: `"help"` and `"held"` each differ from `"helo"` by one
substitution of the last byte, so their distance is 1, not 2. -/
theorem scenario_distances_not_as_stated :
    ¬ (Levenshtein (str "helo") (str "hello") = 1 ∧ Levenshtein (str "helo") (str "help") = 2 ∧
       Levenshtein (str "helo") (str "held") = 2 ∧
       Levenshtein (str "helo") (str "world") = 4) := by
  decide

/-- C17, amended: the values `Levenshtein` computes in the scenario are
`Levenshtein("helo","hello") = 1`, `Levenshtein("helo","help") = 1`,
`Levenshtein("helo","held") = 1` and `Levenshtein("helo","world") = 4`. -/
theorem scenario_distances :
    Levenshtein (str "helo") (str "hello") = 1 ∧ Levenshtein (str "helo") (str "help") = 1 ∧
    Levenshtein (str "helo") (str "held") = 1 ∧ Levenshtein (str "helo") (str "world") = 4 := by
  decide

/-! ### Idempotence of `Insert` -/

theorem mapSet_eq_self (m : List (Rune × TrieNode)) (k : Rune) (v : TrieNode)
    (h : mapGet m k = some v) : mapSet m k v = m := by
  induction m with
  | nil => simp [mapGet] at h
  | cons p m ih =>
    obtain ⟨k0, v0⟩ := p
    by_cases e : k = k0
    · subst e
      simp only [mapGet, if_true, Option.some.injEq] at h
      simp [mapSet, h]
    · simp only [mapGet, e, if_false] at h
      simp [mapSet, e, ih h]

/-- Inserting a word whose path already ends on a terminal node changes nothing. -/
theorem insertLoop_eq_self (w : List Rune) :
    ∀ node : TrieNode, searchLoop node w = true → insertLoop node w = node := by
  induction w with
  | nil =>
    intro node h
    obtain ⟨cs, e⟩ := node
    simp only [searchLoop, TrieNode.isEnd] at h
    simp [insertLoop, h]
  | cons ch rest ih =>
    intro node h
    obtain ⟨cs, e⟩ := node
    simp only [searchLoop, TrieNode.children] at h
    cases hg : mapGet cs ch with
    | none => rw [hg] at h; cases h
    | some next =>
      rw [hg] at h
      simp only [insertLoop, hg, ih next h, mapSet_eq_self cs ch next hg]

/-- C18: `Insert` is idempotent.  Inserting a word the trie already contains leaves the
trie unchanged, nodes and terminal markers alike; so inserting a word twice gives the
same trie, and the same `Search` answer for every word, as inserting it once. -/
theorem insert_idempotent (t : Trie) (w : GoString) :
    (t.Search w = true → t.Insert w = t) ∧
    (t.Insert w).Insert w = t.Insert w ∧
    ∀ v, ((t.Insert w).Insert w).Search v = (t.Insert w).Search v := by
  have h1 : ∀ s : Trie, s.Search w = true → s.Insert w = s := by
    intro s hs
    obtain ⟨root⟩ := s
    simp only [Trie.Insert]
    rw [insertLoop_eq_self (runes w) root hs]
  have h2 : (t.Insert w).Insert w = t.Insert w :=
    h1 (t.Insert w) (by simp [search_insert])
  exact ⟨h1 t, h2, fun v => by rw [h2]⟩

theorem insert_idempotent_witness :
    (insertAll NewTrie [str "help"]).Insert (str "help") = insertAll NewTrie [str "help"] :=
  (insert_idempotent (insertAll NewTrie [str "help"]) (str "help")).1 (by decide)

/-! ### Index safety of `Levenshtein` -/

theorem checkedTable_shape_make (m n : Nat) :
    CheckedTable.Shape m n (makeCheckedTable m n) := by
  constructor
  · simp [makeCheckedTable]
  · intro i hi
    simp [makeCheckedTable, List.getD_eq_getElem?_getD, List.getElem?_replicate,
      Nat.lt_succ_of_le hi]

/-- A read inside the table succeeds exactly on an assigned cell. -/
theorem checkedTable_read_of_cell {m n : Nat} {dp : CheckedTable}
    (h : CheckedTable.Shape m n dp) {i j : Nat} (hi : i ≤ m) (hj : j ≤ n) {v : Int}
    (hc : CheckedTable.cell dp i j = some v) :
    CheckedTable.read dp (i : Int) (j : Int) = Except.ok v := by
  obtain ⟨h1, h2⟩ := h
  have hrow := h2 i hi
  unfold CheckedTable.read
  simp only [Int.toNat_ofNat]
  rw [if_neg (by rw [h1, hrow]; omega), hc]

/-- A write inside the table succeeds, keeps the shape, assigns the cell and leaves the
other cells as they were. -/
theorem checkedTable_write_spec {m n : Nat} {dp : CheckedTable}
    (h : CheckedTable.Shape m n dp) {i j : Nat} (hi : i ≤ m) (hj : j ≤ n) (v : Int) :
    ∃ dp', CheckedTable.write dp (i : Int) (j : Int) v = Except.ok dp' ∧
      CheckedTable.Shape m n dp' ∧
      ∀ i' j', CheckedTable.cell dp' i' j'
        = if i' = i ∧ j' = j then some v else CheckedTable.cell dp i' j' := by
  obtain ⟨h1, h2⟩ := h
  have hrow := h2 i hi
  refine ⟨List.set dp i (List.set (List.getD dp i []) j (some v)), ?_, ⟨?_, ?_⟩, ?_⟩
  · unfold CheckedTable.write
    simp only [Int.toNat_ofNat]
    rw [if_neg (by rw [h1, hrow]; omega)]
  · simp [h1]
  · intro i' hi'
    have := h2 i' hi'
    by_cases e : i = i'
    · subst e
      simp [List.getD_eq_getElem?_getD, List.getElem?_set, h1, Nat.lt_succ_of_le hi'] at this ⊢
      exact this
    · simp [List.getD_eq_getElem?_getD, List.getElem?_set, e] at this ⊢
      exact this
  · intro i' j'
    by_cases e : i = i'
    · subst e
      by_cases e' : j = j'
      · subst e'
        simp [CheckedTable.cell, List.getD_eq_getElem?_getD, List.getElem?_set, h1,
          Nat.lt_succ_of_le hi] at hrow ⊢
        simp [hrow, Nat.lt_succ_of_le hj]
      · have e'' : ¬ j' = j := fun x => e' x.symm
        simp [CheckedTable.cell, List.getD_eq_getElem?_getD, List.getElem?_set, h1,
          Nat.lt_succ_of_le hi, e', e'']
    · have e'' : ¬ i' = i := fun x => e x.symm
      simp [CheckedTable.cell, List.getD_eq_getElem?_getD, List.getElem?_set, e, e'']

theorem foldlM_range_inv {β ε : Type} (f : β → Nat → Except ε β) (Q : β → Nat → Prop)
    (n : Nat) (x : β) (h0 : Q x 0)
    (hstep : ∀ y k, k < n → Q y k → ∃ z, f y k = Except.ok z ∧ Q z (k + 1)) :
    ∃ z, (List.range n).foldlM f x = Except.ok z ∧ Q z n := by
  induction n with
  | zero => exact ⟨x, rfl, h0⟩
  | succ n ih =>
    obtain ⟨z, hz, hq⟩ := ih (fun y k hk => hstep y k (Nat.lt_succ_of_lt hk))
    obtain ⟨z', hz', hq'⟩ := hstep z n (Nat.lt_succ_self n) hq
    refine ⟨z', ?_, hq'⟩
    rw [List.range_succ, List.foldlM_append, hz]
    show List.foldlM f z [n] = Except.ok z'
    rw [List.foldlM_cons, hz']
    rfl

theorem foldlM_range'_inv {β ε : Type} (f : β → Nat → Except ε β) (Q : β → Nat → Prop)
    (n : Nat) (x : β) (h0 : Q x 0)
    (hstep : ∀ y k, k < n → Q y k → ∃ z, f y (k + 1) = Except.ok z ∧ Q z (k + 1)) :
    ∃ z, (List.range' 1 n).foldlM f x = Except.ok z ∧ Q z n := by
  induction n with
  | zero => exact ⟨x, rfl, h0⟩
  | succ n ih =>
    obtain ⟨z, hz, hq⟩ := ih (fun y k hk => hstep y k (Nat.lt_succ_of_lt hk))
    obtain ⟨z', hz', hq'⟩ := hstep z n (Nat.lt_succ_self n) hq
    refine ⟨z', ?_, hq'⟩
    have e : 1 + 1 * n = n + 1 := by omega
    rw [List.range'_concat, List.foldlM_append, hz, e]
    show List.foldlM f z [n + 1] = Except.ok z'
    rw [List.foldlM_cons, hz']
    rfl

theorem byteAtChecked_ok (s : GoString) {i : Nat} (hi : i < s.length) :
    byteAtChecked s (((i + 1 : Nat) : Int) - 1) = Except.ok (byteAt s i) := by
  have e : ((i + 1 : Nat) : Int) - 1 = (i : Int) := by push_cast; omega
  rw [e]
  unfold byteAtChecked
  rw [if_neg (by omega)]
  rfl

/-- With its three neighbours assigned, the body of the inner loop makes no faulty access
and amounts to the single write of `dp[i][j]`. -/
theorem fillCellChecked_eq {m n : Nat} (a b : GoString) {dp : CheckedTable}
    (h : CheckedTable.Shape m n dp) {i j : Nat} (hi : i < a.length) (hj : j < b.length)
    (him : i + 1 ≤ m) (hjn : j + 1 ≤ n) {d e s : Int}
    (hd : CheckedTable.cell dp i (j + 1) = some d)
    (he : CheckedTable.cell dp (i + 1) j = some e)
    (hs : CheckedTable.cell dp i j = some s) :
    fillCellChecked a b (i + 1) dp (j + 1) =
      CheckedTable.write dp ((i + 1 : Nat) : Int) ((j + 1 : Nat) : Int)
        (min (d + 1) (e + 1) (s + if byteAt a i ≠ byteAt b j then 1 else 0)) := by
  have ei : ((i + 1 : Nat) : Int) - 1 = (i : Int) := by push_cast; omega
  have ej : ((j + 1 : Nat) : Int) - 1 = (j : Int) := by push_cast; omega
  have r1 := checkedTable_read_of_cell h (Nat.le_of_succ_le him) hjn hd
  have r2 := checkedTable_read_of_cell h him (Nat.le_of_succ_le hjn) he
  have r3 := checkedTable_read_of_cell h (Nat.le_of_succ_le him) (Nat.le_of_succ_le hjn) hs
  unfold fillCellChecked
  rw [byteAtChecked_ok a hi, byteAtChecked_ok b hj, ei, ej, r1, r2, r3]
  rfl

/-- The two base-case loops with checked writes run without fault and leave column 0 and
row 0 assigned. -/
theorem init_checked_spec (m n : Nat) :
    ∃ dp1 dp, initColChecked m (makeCheckedTable m n) = Except.ok dp1 ∧
      initRowChecked n dp1 = Except.ok dp ∧
      CheckedTable.Shape m n dp ∧
      (∀ i, i ≤ m → CheckedTable.cell dp i 0 = some (i : Int)) ∧
      (∀ j, j ≤ n → CheckedTable.cell dp 0 j = some (j : Int)) := by
  obtain ⟨dp1, hdp1, hs1, hc1⟩ := foldlM_range_inv
    (fun dp (i : Nat) => CheckedTable.write dp (i : Int) 0 (i : Int))
    (fun dp k => CheckedTable.Shape m n dp ∧
      ∀ i, i < k → CheckedTable.cell dp i 0 = some (i : Int))
    (m + 1) (makeCheckedTable m n)
    ⟨checkedTable_shape_make m n, fun i hi => absurd hi (Nat.not_lt_zero i)⟩
    (by
      rintro y k hk ⟨hs, hv⟩
      obtain ⟨z, hz, hsz, hcz⟩ :=
        checkedTable_write_spec hs (Nat.le_of_lt_succ hk) (Nat.zero_le n) (k : Int)
      refine ⟨z, by simpa using hz, hsz, fun i hi => ?_⟩
      rw [hcz]
      by_cases e : i = k
      · simp [e]
      · simp only [e, false_and, if_false]
        exact hv i (by omega))
  obtain ⟨dp, hdp, hs, hc, hr⟩ := foldlM_range_inv
    (fun dp (j : Nat) => CheckedTable.write dp 0 (j : Int) (j : Int))
    (fun dp k => CheckedTable.Shape m n dp ∧
      (∀ i, i ≤ m → CheckedTable.cell dp i 0 = some (i : Int)) ∧
      ∀ j, j < k → CheckedTable.cell dp 0 j = some (j : Int))
    (n + 1) dp1
    ⟨hs1, fun i hi => hc1 i (Nat.lt_succ_of_le hi), fun j hj => absurd hj (Nat.not_lt_zero j)⟩
    (by
      rintro y k hk ⟨hs, hc, hv⟩
      obtain ⟨z, hz, hsz, hcz⟩ :=
        checkedTable_write_spec hs (Nat.zero_le m) (Nat.le_of_lt_succ hk) (k : Int)
      refine ⟨z, by simpa using hz, hsz, fun i hi => ?_, fun j hj => ?_⟩
      · rw [hcz]
        by_cases e : i = 0 ∧ 0 = k
        · obtain ⟨e1, e2⟩ := e
          subst e1; subst e2; simp
        · simp only [e, if_false]
          exact hc i hi
      · rw [hcz]
        by_cases e : j = k
        · simp [e]
        · simp only [e, and_false, if_false]
          exact hv j (by omega))
  exact ⟨dp1, dp, by unfold initColChecked; exact hdp1, by unfold initRowChecked; exact hdp,
    hs, hc, fun j hj => hr j (Nat.lt_succ_of_le hj)⟩

theorem fillRowChecked_spec (a b : GoString) (dp : CheckedTable) (i : Nat)
    (hi : i < a.length) (h : RowsAssigned a b dp i) :
    ∃ dp', fillRowChecked a b b.length dp (i + 1) = Except.ok dp' ∧
      RowsAssigned a b dp' (i + 1) := by
  obtain ⟨dp', hdp', hq⟩ := foldlM_range'_inv (fillCellChecked a b (i + 1))
    (fun dp k => CheckedTable.Shape a.length b.length dp ∧
      (∀ i', i' ≤ a.length → CheckedTable.cell dp i' 0 = some (cellSpec a b i' 0)) ∧
      (∀ i' j', i' ≤ i → j' ≤ b.length →
        CheckedTable.cell dp i' j' = some (cellSpec a b i' j')) ∧
      (∀ j', j' ≤ k → CheckedTable.cell dp (i + 1) j' = some (cellSpec a b (i + 1) j')))
    b.length dp
    ⟨h.1, h.2.1, h.2.2, fun j' hj' => by
      have : j' = 0 := by omega
      subst this
      exact h.2.1 (i + 1) hi⟩
    (by
      rintro y k hk ⟨hs, hc, hr, hv⟩
      have hcell := fillCellChecked_eq a b hs hi hk (Nat.succ_le_of_lt hi)
        (Nat.succ_le_of_lt hk) (hr i (k + 1) (Nat.le_refl i) (Nat.succ_le_of_lt hk))
        (hv k (Nat.le_refl k)) (hr i k (Nat.le_refl i) (Nat.le_of_lt hk))
      obtain ⟨z, hz, hsz, hcz⟩ := checkedTable_write_spec hs (Nat.succ_le_of_lt hi)
        (Nat.succ_le_of_lt hk)
        (min (cellSpec a b i (k + 1) + 1) (cellSpec a b (i + 1) k + 1)
          (cellSpec a b i k + if byteAt a i ≠ byteAt b k then 1 else 0))
      refine ⟨z, hcell.trans hz, hsz, fun i' hi' => ?_, fun i' j' hi' hj' => ?_,
        fun j' hj' => ?_⟩
      · rw [hcz]
        have : ¬ (i' = i + 1 ∧ 0 = k + 1) := by omega
        simp only [this, if_false]
        exact hc i' hi'
      · rw [hcz]
        have : ¬ (i' = i + 1 ∧ j' = k + 1) := by omega
        simp only [this, if_false]
        exact hr i' j' hi' hj'
      · rw [hcz]
        by_cases e : j' = k + 1
        · subst e
          simp only [true_and, if_true]
          rw [cellSpec_succ a b hi hk]
        · simp only [e, and_false, if_false]
          exact hv j' (by omega))
  refine ⟨dp', hdp', hq.1, hq.2.1, fun i' j' hi' hj' => ?_⟩
  by_cases e : i' = i + 1
  · subst e; exact hq.2.2.2 j' hj'
  · exact hq.2.2.1 i' j' (by omega) hj'

/-- The function with checked accesses never faults and returns what `Levenshtein`
returns. -/
theorem LevenshteinChecked_eq (a b : GoString) :
    LevenshteinChecked a b = Except.ok (Levenshtein a b) := by
  rw [Levenshtein_eq_levRec]
  unfold LevenshteinChecked
  by_cases hm : a.length = 0
  · have : a = [] := List.length_eq_zero.1 hm
    subst this
    simp [levRec_nil_left]
  · by_cases hn : b.length = 0
    · have : b = [] := List.length_eq_zero.1 hn
      subst this
      have hm' : a ≠ [] := fun e => hm (by simp [e])
      simp [levRec_nil_right, hm']
    · simp only [hm, hn, if_false]
      obtain ⟨dp1, dp2, h1, h2, hs, hc, hr⟩ := init_checked_spec a.length b.length
      obtain ⟨dp3, h3, hq⟩ := foldlM_range'_inv (fillRowChecked a b b.length)
        (fun dp k => RowsAssigned a b dp k) a.length dp2
        ⟨hs, fun i hi => by rw [hc i hi, cellSpec_zero_right a b hi],
          fun i' j' hi' hj' => by
            have : i' = 0 := by omega
            subst this
            rw [hr j' hj', cellSpec_zero_left a b hj']⟩
        (fun y k hk hy => fillRowChecked_spec a b y k hk hy)
      have h3' : fillTableChecked a b a.length b.length dp2 = Except.ok dp3 := h3
      rw [h1]
      show (initRowChecked b.length dp1 >>= fun dp =>
        fillTableChecked a b a.length b.length dp >>= fun dp =>
          CheckedTable.read dp (a.length : Int) (b.length : Int)) = _
      rw [h2]
      show (fillTableChecked a b a.length b.length dp2 >>= fun dp =>
          CheckedTable.read dp (a.length : Int) (b.length : Int)) = _
      rw [h3']
      show CheckedTable.read dp3 (a.length : Int) (b.length : Int) = _
      rw [checkedTable_read_of_cell hq.1 (Nat.le_refl _) (Nat.le_refl _)
        (hq.2.2 a.length b.length (Nat.le_refl _) (Nat.le_refl _))]
      simp [cellSpec, levRec_reverse]

/-- The checks do report: an unassigned cell, an index past the table or below zero, and
an index past the end of a string each raise their fault. -/
theorem checked_access_faults :
    CheckedTable.read (makeCheckedTable 1 1) 1 1 = Except.error Fault.readBeforeWrite ∧
    CheckedTable.read (makeCheckedTable 1 1) 2 0 = Except.error Fault.indexOutOfRange ∧
    CheckedTable.read (makeCheckedTable 1 1) 0 (-1) = Except.error Fault.indexOutOfRange ∧
    CheckedTable.write (makeCheckedTable 1 1) 0 2 5 = Except.error Fault.indexOutOfRange ∧
    byteAtChecked (str "ab") 2 = Except.error Fault.indexOutOfRange ∧
    byteAtChecked (str "ab") (-1) = Except.error Fault.indexOutOfRange ∧
    LevenshteinChecked (str "kitten") (str "sitting") = Except.ok 3 :=
  ⟨rfl, rfl, rfl, rfl, rfl, rfl, rfl⟩

/-- C20: `Levenshtein` is total and index-safe.  Run with every access checked, the
function never faults: each access to `dp[i][j]`, `dp[i-1][j]`, `dp[i][j-1]`,
`dp[i-1][j-1]`, `a[i-1]` and `b[j-1]` is within the bounds of the table and of the
strings, each cell read has been assigned before, and the value returned is that of
`Levenshtein`, a non-negative integer. -/
theorem levenshtein_index_safe (a b : GoString) :
    LevenshteinChecked a b = Except.ok (Levenshtein a b) ∧ 0 ≤ Levenshtein a b := by
  refine ⟨LevenshteinChecked_eq a b, ?_⟩
  rw [Levenshtein_eq_levRec]
  exact Int.ofNat_nonneg _

end GoTypo
